import Mathlib

/-!
Verification of the distributed task-dispatch layer of the NEATIFY_DEMOS
self-driving-car demo: the wire protocol (`distributed_protocol.py`), the
master coordinator (`distributed_master.py`) and the worker agent
(`distributed_worker.py`) are shallowly embedded as executable Lean
functions, and the specification's claims about them are proved or refuted.

Modelling conventions:
* bytes are `Nat` values (< 256 where it matters);
* a TCP read stream is a list of chunks, each chunk being the bytes a
  single `recv` call can return; `recv` never spans a chunk boundary and
  returns the empty list exactly at end-of-stream;
* Python floats that are merely passed through (fitness values) are
  modelled as rationals;
* JSON numbers are modelled as (arbitrary-precision) integers, JSON strings
  as lists of characters.
-/

namespace Neatify

/-! ## Byte-level socket model -/
/-- Concatenation of the chunks of a read stream. -/
def flat : List (List Nat) → List Nat
  | [] => []
  | c :: r => c ++ flat r

/-- A well-formed stream has no empty chunk: an empty `recv` result means
end-of-stream, which we model by the stream running out of chunks. -/
def wfStream (s : List (List Nat)) : Bool :=
  s.all (fun c => !c.isEmpty)

/-- Model of `sock.recv(n)`: returns at most `n` bytes from the first
pending chunk (never spanning a chunk boundary), together with the rest of
the stream; returns `[]` at end-of-stream. -/
def sockRecv (n : Nat) (s : List (List Nat)) : List Nat × List (List Nat) :=
  match s with
  | [] => ([], [])
  | c :: rest => if c.length ≤ n then (c, rest) else (c.take n, c.drop n :: rest)

/-- Fuelled version of the body-accumulation loop of `receive_message`
(`while len(msg_bytes) < length: chunk = sock.recv(min(length - len(msg_bytes), 4096)); ...`).
The fuel only serves termination: each successful iteration reads at least
one byte, so fuel `need` is always sufficient. -/
def recvBodyF : Nat → Nat → List (List Nat) → Option (List Nat)
  | _, 0, _ => some []
  | 0, _ + 1, _ => none
  | fuel + 1, need + 1, s =>
    let p := sockRecv (min (need + 1) 4096) s
    if p.1.isEmpty then none
    else (recvBodyF fuel (need + 1 - p.1.length) p.2).map (fun tl => p.1 ++ tl)

/-- Body-accumulation loop of `receive_message`: read exactly `need` bytes,
across as many partial reads as necessary, or fail if the stream ends. -/
def recvBody (need : Nat) (s : List (List Nat)) : Option (List Nat) :=
  recvBodyF need need s

/-- Model of Python `int.from_bytes(bs, 'big')`. -/
def intFromBytesBE (bs : List Nat) : Nat :=
  bs.foldl (fun a b => a * 256 + b) 0

/-- Model of Python `n.to_bytes(4, 'big')` (defined for `n < 2^32`;
Python raises `OverflowError` above that, which callers guard). -/
def toBytesBE4 (n : Nat) : List Nat :=
  [n / 16777216 % 256, n / 65536 % 256, n / 256 % 256, n % 256]

/-- Byte-level part of `receive_message` (`distributed_protocol.py`,
lines 47-61): a single `recv(4)` for the length, `None` if it returns
empty, then the body loop.  Note the length read is NOT retried: whatever
nonempty byte list the first `recv` returns is fed to `int.from_bytes`. -/
def receiveRaw (s : List (List Nat)) : Option (List Nat) :=
  let p := sockRecv 4 s
  if p.1.isEmpty then none
  else recvBody (intFromBytesBE p.1) p.2

/-! ## JSON values

Messages are JSON documents (`json.dumps` / `json.loads`).  JSON numbers
are modelled as integers (arbitrary-precision, like Python ints), strings
as character lists.  Arrays and objects are mutual inductives so that all
functions below are structurally recursive and computable by the kernel. -/
mutual
inductive JVal where
  | jnull
  | jbool (b : Bool)
  | jnum (n : Int)
  | jstr (s : List Char)
  | jarr (xs : JElems)
  | jobj (kvs : JMembers)
  deriving DecidableEq
inductive JElems where
  | nil
  | cons (v : JVal) (tl : JElems)
  deriving DecidableEq
inductive JMembers where
  | nil
  | cons (k : List Char) (v : JVal) (tl : JMembers)
  deriving DecidableEq
end

def dquote : Char := Char.ofNat 34

def bslash : Char := Char.ofNat 92

def lbrace : Char := Char.ofNat 123

def rbrace : Char := Char.ofNat 125

/-- JSON string escaping as `json.dumps` performs it on the characters our
well-formedness predicate admits: quote and backslash get a backslash. -/
def escChar (c : Char) : List Char :=
  if c = dquote ∨ c = bslash then [bslash, c] else [c]

def escStr : List Char → List Char
  | [] => []
  | c :: cs => escChar c ++ escStr cs

/-- Big-endian decimal digits of `n` (fuelled; fuel `n` always suffices). -/
def toDigitsAux : Nat → Nat → List Char → List Char
  | 0, _, acc => acc
  | f + 1, n, acc =>
    if n = 0 then acc else toDigitsAux f (n / 10) (Nat.digitChar (n % 10) :: acc)

def renderNat (n : Nat) : List Char :=
  if n = 0 then ['0'] else toDigitsAux n n []

/-- Decimal rendering of a Python int, as `json.dumps` emits it. -/
def renderInt : Int → List Char
  | .ofNat n => renderNat n
  | .negSucc n => '-' :: renderNat (n + 1)

mutual
/-- Model of `json.dumps` with its default separators (`", "` and `": "`). -/
def renderV : JVal → List Char
  | .jnull => ['n', 'u', 'l', 'l']
  | .jbool true => ['t', 'r', 'u', 'e']
  | .jbool false => ['f', 'a', 'l', 's', 'e']
  | .jnum n => renderInt n
  | .jstr s => dquote :: escStr s ++ [dquote]
  | .jarr .nil => ['[', ']']
  | .jarr (.cons v tl) => '[' :: (renderV v ++ renderL tl) ++ [']']
  | .jobj .nil => [lbrace, rbrace]
  | .jobj (.cons k v tl) =>
    lbrace :: ((dquote :: escStr k ++ [dquote] ++ (':' :: ' ' :: renderV v))
      ++ renderM tl) ++ [rbrace]
def renderL : JElems → List Char
  | .nil => []
  | .cons v tl => ',' :: ' ' :: (renderV v ++ renderL tl)
def renderM : JMembers → List Char
  | .nil => []
  | .cons k v tl =>
    ',' :: ' ' :: ((dquote :: escStr k ++ [dquote] ++ (':' :: ' ' :: renderV v))
      ++ renderM tl)
end

/-- Rendering of one object member (`"key": value` with the `": "`
separator of `json.dumps`). -/
def renderKV (k : List Char) (v : JVal) : List Char :=
  dquote :: escStr k ++ [dquote] ++ (':' :: ' ' :: renderV v)

/-- Characters admitted in modelled JSON strings: printable ASCII.  On this
range `json.dumps` emits the character raw (after `escChar`), and UTF-8 is
the identity on codes below 128. -/
def wfChar (c : Char) : Bool := 32 ≤ c.toNat && c.toNat < 128

def wfStr (s : List Char) : Bool := s.all wfChar

mutual
def wfV : JVal → Bool
  | .jnull => true
  | .jbool _ => true
  | .jnum _ => true
  | .jstr s => wfStr s
  | .jarr xs => wfL xs
  | .jobj kvs => wfM kvs
def wfL : JElems → Bool
  | .nil => true
  | .cons v tl => wfV v && wfL tl
def wfM : JMembers → Bool
  | .nil => true
  | .cons k v tl => wfStr k && wfV v && wfM tl
end

/-! ## JSON parsing (model of `json.loads` on canonical `json.dumps` output) -/
/-- Parse the remainder of a JSON string (the opening quote has been
consumed): plain characters, `backslash`-escapes for quote and backslash,
ending at the closing quote. -/
def pStr : List Char → Option (List Char × List Char)
  | [] => none
  | c :: cs =>
    if c = dquote then some ([], cs)
    else if c = bslash then
      match cs with
      | [] => none
      | c2 :: cs2 =>
        if c2 = dquote ∨ c2 = bslash then
          (pStr cs2).map (fun p => (c2 :: p.1, p.2))
        else none
    else (pStr cs).map (fun p => (c :: p.1, p.2))

def readNat (ds : List Char) : Nat :=
  ds.foldl (fun a c => a * 10 + (c.toNat - 48)) 0

/-- Decimal digit test (the characters with codes 48-57). -/
def isDig (c : Char) : Bool := 48 ≤ c.toNat && c.toNat ≤ 57

/-- True when the input does not continue with a digit, so that a just-read
number cannot greedily swallow characters belonging to the context. -/
def headNotDigit : List Char → Bool
  | [] => true
  | c :: _ => !isDig c

mutual
/-- Fuelled JSON value parser.  Fuel only serves termination; any fuel of
at least the input length succeeds on everything `renderV` produces. -/
def pVal : Nat → List Char → Option (JVal × List Char)
  | 0, _ => none
  | fuel + 1, cs =>
    match cs with
    | [] => none
    | c :: rest =>
      if c = 'n' then
        match rest with
        | 'u' :: 'l' :: 'l' :: rs => some (.jnull, rs)
        | _ => none
      else if c = 't' then
        match rest with
        | 'r' :: 'u' :: 'e' :: rs => some (.jbool true, rs)
        | _ => none
      else if c = 'f' then
        match rest with
        | 'a' :: 'l' :: 's' :: 'e' :: rs => some (.jbool false, rs)
        | _ => none
      else if c = dquote then
        (pStr rest).map (fun p => (JVal.jstr p.1, p.2))
      else if c = '-' then
        if rest.takeWhile isDig = [] then none
        else some (.jnum (-(readNat (rest.takeWhile isDig) : Int)),
          rest.dropWhile isDig)
      else if isDig c then
        some (.jnum (Int.ofNat (readNat ((c :: rest).takeWhile isDig))),
          (c :: rest).dropWhile isDig)
      else if c = '[' then
        match rest with
        | [] => none
        | c2 :: rs2 =>
          if c2 = ']' then some (.jarr .nil, rs2)
          else (pElems fuel (c2 :: rs2)).map (fun p => (JVal.jarr p.1, p.2))
      else if c = lbrace then
        match rest with
        | [] => none
        | c2 :: rs2 =>
          if c2 = rbrace then some (.jobj .nil, rs2)
          else (pMembers fuel (c2 :: rs2)).map (fun p => (JVal.jobj p.1, p.2))
      else none
/-- Parse one or more comma-separated array elements up to and including
the closing bracket. -/
def pElems : Nat → List Char → Option (JElems × List Char)
  | 0, _ => none
  | fuel + 1, cs =>
    match pVal fuel cs with
    | none => none
    | some (v, rs) =>
      match rs with
      | ']' :: rs2 => some (.cons v .nil, rs2)
      | ',' :: ' ' :: rs2 =>
        (pElems fuel rs2).map (fun p => (JElems.cons v p.1, p.2))
      | _ => none
/-- Parse one or more comma-separated object members up to and including
the closing brace. -/
def pMembers : Nat → List Char → Option (JMembers × List Char)
  | 0, _ => none
  | fuel + 1, cs =>
    match cs with
    | [] => none
    | c :: rest =>
      if c = dquote then
        match pStr rest with
        | none => none
        | some (k, rs) =>
          match rs with
          | ':' :: ' ' :: rs2 =>
            match pVal fuel rs2 with
            | none => none
            | some (v, rs3) =>
              match rs3 with
              | ',' :: ' ' :: rs4 =>
                (pMembers fuel rs4).map (fun p => (JMembers.cons k v p.1, p.2))
              | c4 :: rs4 =>
                if c4 = rbrace then some (.cons k v .nil, rs4) else none
              | [] => none
          | _ => none
      else none
end

/-! ## The protocol functions of `distributed_protocol.py` -/
def typeKey : List Char := ['t', 'y', 'p', 'e']

def dataKey : List Char := ['d', 'a', 't', 'a']

/-- Message kind constants of class `Message`. -/
def REGISTER : List Char := ['R', 'E', 'G', 'I', 'S', 'T', 'E', 'R']

def TASK : List Char := ['T', 'A', 'S', 'K']

def RESULT : List Char := ['R', 'E', 'S', 'U', 'L', 'T']

def SHUTDOWN : List Char := ['S', 'H', 'U', 'T', 'D', 'O', 'W', 'N']

def HEARTBEAT : List Char := ['H', 'E', 'A', 'R', 'T', 'B', 'E', 'A', 'T']

def msgKinds : List (List Char) := [REGISTER, TASK, RESULT, SHUTDOWN, HEARTBEAT]

/-- Model of `create_message`: `json.dumps({'type': msg_type, 'data': data or {}})`.
The `data or ...` of the source maps both `None` and the empty dict to an
empty payload object. -/
def create_message (msg_type : List Char) (data : Option JMembers) : List Char :=
  renderV (.jobj (.cons typeKey (.jstr msg_type)
    (.cons dataKey (.jobj (match data with
      | none => .nil
      | some .nil => .nil
      | some d => d)) .nil)))

/-- Model of `parse_message` (`json.loads`): the whole input must be one
JSON document. -/
def parse_message (msg : List Char) : Option JVal :=
  match pVal (msg.length + 1) msg with
  | some (v, []) => some v
  | _ => none

/-- Model of `str.encode('utf-8')` on the ASCII plane (the only one the
protocol's canonical messages use). -/
def encodeUtf8 (s : List Char) : List Nat := s.map Char.toNat

/-- Model of `bytes.decode('utf-8')` on the ASCII plane; a byte outside it
is treated as a decoding failure (a raised exception in Python). -/
def decodeUtf8 : List Nat → Option (List Char)
  | [] => some []
  | b :: bs =>
    if b < 128 then (decodeUtf8 bs).map (fun t => Char.ofNat b :: t) else none

/-- Model of `send_message`: frame the JSON encoding of `{type, data}` with
a 4-byte big-endian length.  `none` models the `OverflowError` of
`to_bytes` on bodies of 2^32 bytes or more. -/
def send_message (msg_type : List Char) (data : Option JMembers) :
    Option (List Nat) :=
  let msg_bytes := encodeUtf8 (create_message msg_type data)
  if msg_bytes.length < 2 ^ 32 then
    some (toBytesBE4 msg_bytes.length ++ msg_bytes)
  else none

/-- Model of `receive_message` on a read stream.  `Except.error` is a
raised exception (undecodable or unparsable body); `Except.ok none` is the
Python `None` return; `Except.ok (some v)` is a parsed message.  Note that
no code path raises anything like a `ConnectionClosed` error: end-of-stream
yields `Except.ok none`. -/
def receive_message (s : List (List Nat)) : Except Unit (Option JVal) :=
  match receiveRaw s with
  | none => .ok none
  | some bs =>
    match decodeUtf8 bs with
    | none => .error ()
    | some msg =>
      match parse_message msg with
      | none => .error ()
      | some v => .ok (some v)

/-! ## Round trip of the JSON codec -/
mutual
def szV : JVal → Nat
  | .jnull => 1
  | .jbool _ => 1
  | .jnum _ => 1
  | .jstr _ => 1
  | .jarr xs => szL xs + 1
  | .jobj kvs => szM kvs + 1
def szL : JElems → Nat
  | .nil => 1
  | .cons v tl => szV v + szL tl + 1
def szM : JMembers → Nat
  | .nil => 1
  | .cons _ v tl => szV v + szM tl + 1
end

def asciiStr (s : List Char) : Bool := s.all (fun c => c.toNat < 128)

/-! ## Worker agent model (`distributed_worker.py`, `DistributedWorker.run`)

One iteration of the `while self.running` loop is driven by what
`receive_message` did: raised `socket.timeout`, returned `None`, returned a
parsed message, or raised some other exception.  A TASK message carries the
genome id and the outcome of the worker-side handling chain
(`deserialize_genome`, building the network and car, evaluating): `ok` with
the computed fitness, or `error` when any of those raised. -/
deriving instance DecidableEq for Except

inductive WMsg where
  | task (genome_id : Nat) (outcome : Except Unit ℚ)
  | wshutdown
  | other
  deriving DecidableEq

inductive RecvOutcome where
  | timeout
  | ret (m : Option WMsg)
  | exn
  deriving DecidableEq

structure WState where
  running : Bool
  sent : List (Nat × ℚ)
  deriving DecidableEq

/-- One iteration of the worker loop body (lines 56-101): `socket.timeout`
and a `None` return both `continue`; a TASK either sends back a RESULT
`{genome_id, fitness}` or (if handling it raised) falls into the generic
`except Exception` handler, which prints and sets `running = False`;
SHUTDOWN sets `running = False`; any other message kind matches no branch;
any other exception from `receive_message` also stops the loop. -/
def workerStep (o : RecvOutcome) (s : WState) : WState :=
  match o with
  | .timeout => s
  | .ret none => s
  | .ret (some (.task gid outcome)) =>
    match outcome with
    | .ok fitness => { s with sent := s.sent ++ [(gid, fitness)] }
    | .error _ => { s with running := false }
  | .ret (some .wshutdown) => { s with running := false }
  | .ret (some .other) => s
  | .exn => { s with running := false }

/-- The `while self.running` loop over a finite trace of receive outcomes. -/
def runWorker : List RecvOutcome → WState → WState
  | [], s => s
  | o :: os, s => if s.running then runWorker os (workerStep o s) else s

/-! ## Master coordinator model (`distributed_master.py`) -/
/-- A genome as the master sees it: `pyId` is `id(genome)` (the CPython
object address) and `dat` the opaque content that `serialize_genome`
encodes. -/
structure PyGenome where
  pyId : Nat
  dat : Nat
  deriving DecidableEq

/-- Model of `serialize_genome` (pickle then base64): an injective opaque
encoding, modelled as the content itself. -/
def serialize_genome (g : PyGenome) : Nat := g.dat

/-- A registered worker connection; `broken` means sends on it raise. -/
structure WConn where
  broken : Bool
  deriving DecidableEq

/-- Payload of a TASK message as built in `distribute_genomes` lines 94-97:
`{'genome_id': id(genome), 'genome_data': serialize_genome(genome)}`. -/
structure TaskMsg where
  genome_id : Nat
  genome_data : Nat
  deriving DecidableEq

/-- Python `del d[k]`: removes the binding, or raises `KeyError` when the
key is absent. -/
def pyDictDel (d : List (Nat × WConn)) (k : Nat) :
    Except Unit (List (Nat × WConn)) :=
  if (d.lookup k).isSome then .ok (d.filter (fun p => p.1 != k)) else .error ()

/-- The `for i, genome in enumerate(genomes)` loop of `distribute_genomes`
(lines 89-101): pick worker `worker_list[i % num_workers]` from the
snapshot, send the TASK (raises if the connection is broken), and on a send
failure run `del self.workers[worker_id]` - which itself raises an uncaught
`KeyError` if that worker id was already deleted.  Returns the successfully
sent `(worker_id, TASK)` messages and either the final registry or the
escaped `KeyError`. -/
def distributeLoop (workerList : List (Nat × WConn)) :
    Nat → List PyGenome → List (Nat × WConn) →
    List (Nat × TaskMsg) × Except Unit (List (Nat × WConn))
  | _, [], ws => ([], .ok ws)
  | i, g :: rest, ws =>
    let w := workerList.getD (i % workerList.length) (0, ⟨false⟩)
    if w.2.broken then
      match pyDictDel ws w.1 with
      | .ok ws2 => distributeLoop workerList (i + 1) rest ws2
      | .error e => ([], .error e)
    else
      let r := distributeLoop workerList (i + 1) rest ws
      ((w.1, ⟨g.pyId, serialize_genome g⟩) :: r.1, r.2)

/-- Model of `distribute_genomes`: returns `none` (Python `False`) when the
registry is empty, else runs the enumerate loop over a snapshot of the
registry. -/
def distribute_genomes (genomes : List PyGenome)
    (workers : List (Nat × WConn)) :
    Option (List (Nat × TaskMsg) × Except Unit (List (Nat × WConn))) :=
  if workers.isEmpty then none
  else some (distributeLoop workers 0 genomes workers)

/-- Python dict assignment `self.results[genome_id] = fitness` (line 128):
overwrite the binding in place, or append a new one. -/
def recordResult (res : List (Nat × ℚ)) (m : Nat × ℚ) : List (Nat × ℚ) :=
  if (res.lookup m.1).isSome then
    res.map (fun p => if p.1 = m.1 then m else p)
  else res ++ [m]

/-- One polling pass of `collect_results` (lines 117-134): every RESULT
message received in the pass is recorded unconditionally, keyed by whatever
`genome_id` the worker sent. -/
def collectPass (res : List (Nat × ℚ)) (msgs : List (Nat × ℚ)) :
    List (Nat × ℚ) :=
  msgs.foldl recordResult res

/-- The `while len(self.results) < expected_results` loop of
`collect_results` (line 112) over the finite trace of polling passes that
fit before the deadline. -/
def collectLoop (expected : Nat) :
    List (List (Nat × ℚ)) → List (Nat × ℚ) → List (Nat × ℚ)
  | [], res => res
  | p :: ps, res =>
    if res.length < expected then collectLoop expected ps (collectPass res p)
    else res

/-- Python `self.results.get(genome_id, 0.0)` (line 139). -/
def dictGet (res : List (Nat × ℚ)) (k : Nat) : ℚ :=
  (res.lookup k).getD 0

/-- Lines 137-139: `genome.fitness = self.results.get(id(genome), 0.0)`. -/
def assignFitness (genomes : List PyGenome) (res : List (Nat × ℚ)) :
    List (PyGenome × ℚ) :=
  genomes.map (fun g => (g, dictGet res g.pyId))

/-- Whether a task id has a recorded result.  The specification's `success`
flag has no counterpart in the code; a task is successful exactly when its
id is present in the result mapping, and an absent id is what the
specification calls `fitness 0.0 with success = false`. -/
def resultRecorded (res : List (Nat × ℚ)) (k : Nat) : Bool :=
  (res.lookup k).isSome

/-- Keys of a payload object (a payload models a Python dict, whose keys
are distinct). -/
def memberKeys : JMembers → List (List Char)
  | .nil => []
  | .cons k _ tl => k :: memberKeys tl

/-- Closed form of the messages `distribute_genomes` sends when no
connection fails: task `i` goes to `worker_list[i % num_workers]` and
carries `genome_id = id(genome)`. -/
def roundRobinSends (genomes : List PyGenome) (wl : List (Nat × WConn)) :
    List (Nat × TaskMsg) :=
  genomes.enum.map (fun p =>
    ((wl.getD (p.1 % wl.length) (0, ⟨false⟩)).1, ⟨p.2.pyId, p.2.dat⟩))

/-! ## Basic facts about the socket model -/
theorem flat_nil : flat [] = [] := rfl

theorem flat_cons (c : List Nat) (r : List (List Nat)) :
    flat (c :: r) = c ++ flat r := rfl

theorem wfStream_cons {c : List Nat} {r : List (List Nat)}
    (h : wfStream (c :: r) = true) : c ≠ [] ∧ wfStream r = true := by
  simp [wfStream, List.all_cons] at h
  exact ⟨by simpa [List.isEmpty_iff] using h.1, by simpa [wfStream] using h.2⟩

theorem intFromBytesBE_toBytesBE4 {n : Nat} (h : n < 2 ^ 32) :
    intFromBytesBE (toBytesBE4 n) = n := by
  simp only [intFromBytesBE, toBytesBE4, List.foldl]
  omega

/-- After a `recv` on a well-formed nonempty stream, the returned chunk and
the remaining stream still concatenate to the original data, the chunk is
nonempty, and the remaining stream is well-formed. -/
theorem sockRecv_spec {n : Nat} (hn : 0 < n) {c : List Nat} {r : List (List Nat)}
    (hw : wfStream (c :: r) = true) :
    (sockRecv n (c :: r)).1 ≠ [] ∧
    (sockRecv n (c :: r)).1 ++ flat (sockRecv n (c :: r)).2 = flat (c :: r) ∧
    (sockRecv n (c :: r)).1.length ≤ n ∧
    wfStream (sockRecv n (c :: r)).2 = true := by
  obtain ⟨hc, hr⟩ := wfStream_cons hw
  by_cases hlen : c.length ≤ n
  · simp only [sockRecv, if_pos hlen]
    exact ⟨hc, rfl, hlen, hr⟩
  · simp only [sockRecv, if_neg hlen]
    push_neg at hlen
    refine ⟨?_, ?_, ?_, ?_⟩
    · have : (c.take n).length = n := by
        simp [List.length_take]; omega
      intro hemp
      rw [hemp] at this
      simp at this
      omega
    · simp only [flat_cons]
      rw [← List.append_assoc, List.take_append_drop]
    · simp [List.length_take]
    · have hdrop : c.drop n ≠ [] := by
        intro hemp
        have := List.length_drop n c
        rw [hemp] at this
        simp at this
        omega
      simp [wfStream, List.all_cons, List.isEmpty_iff, hdrop]
      simpa [wfStream] using hr

/-- The body loop reads exactly `need` bytes from a well-formed stream
holding at least that many, regardless of how they are chunked. -/
theorem recvBodyF_exact :
    ∀ (fuel need : Nat) (s : List (List Nat)), wfStream s = true →
      need ≤ fuel → need ≤ (flat s).length →
      recvBodyF fuel need s = some ((flat s).take need) := by
  intro fuel
  induction fuel with
  | zero =>
    intro need s _ hf _
    interval_cases need
    rfl
  | succ f ih =>
    intro need s hw hf hav
    match need with
    | 0 => simp [recvBodyF]
    | m + 1 =>
      match s with
      | [] => simp [flat] at hav
      | c :: r =>
        obtain ⟨hne, hcat, hlen, hw'⟩ := sockRecv_spec (n := min (m + 1) 4096)
          (by simp) hw
        simp only [recvBodyF]
        rw [if_neg (by simpa [List.isEmpty_iff] using hne)]
        set p := sockRecv (min (m + 1) 4096) (c :: r) with hp
        have hplen : 1 ≤ p.1.length := by
          cases hq : p.1 with
          | nil => exact absurd hq hne
          | cons a t => simp [hq]
        have hple : p.1.length ≤ m + 1 := le_trans hlen (min_le_left _ _)
        have hflat : (flat (c :: r)) = p.1 ++ flat p.2 := hcat.symm
        have hlenf : m + 1 - p.1.length ≤ (flat p.2).length := by
          have : (flat (c :: r)).length = p.1.length + (flat p.2).length := by
            rw [hflat]; simp
          omega
        rw [ih (m + 1 - p.1.length) p.2 hw' (by omega) hlenf]
        simp only [Option.map_some']
        congr 1
        rw [hflat, List.take_append_eq_append_take,
          List.take_of_length_le hple]

/-- The body loop fails (the Python code returns `None`) when the stream
ends before `need` bytes have arrived. -/
theorem recvBodyF_short :
    ∀ (fuel need : Nat) (s : List (List Nat)), wfStream s = true →
      need ≤ fuel → (flat s).length < need →
      recvBodyF fuel need s = none := by
  intro fuel
  induction fuel with
  | zero =>
    intro need s _ hf hs
    interval_cases need
    omega
  | succ f ih =>
    intro need s hw hf hs
    match need with
    | 0 => omega
    | m + 1 =>
      match s with
      | [] =>
        simp [recvBodyF, sockRecv]
      | c :: r =>
        obtain ⟨hne, hcat, hlen, hw'⟩ := sockRecv_spec (n := min (m + 1) 4096)
          (by simp) hw
        simp only [recvBodyF]
        rw [if_neg (by simpa [List.isEmpty_iff] using hne)]
        set p := sockRecv (min (m + 1) 4096) (c :: r) with hp
        have hplen : 1 ≤ p.1.length := by
          cases hq : p.1 with
          | nil => exact absurd hq hne
          | cons a t => simp [hq]
        have hflat : (flat (c :: r)) = p.1 ++ flat p.2 := hcat.symm
        have hlenf : (flat p.2).length < m + 1 - p.1.length := by
          have : (flat (c :: r)).length = p.1.length + (flat p.2).length := by
            rw [hflat]; simp
          have hple : p.1.length ≤ m + 1 := le_trans hlen (min_le_left _ _)
          omega
        rw [ih (m + 1 - p.1.length) p.2 hw' (by omega) hlenf]
        rfl

/-- Chunk-boundary independence of the byte-level receive, GIVEN that the
first read delivers the whole 4-byte length field: if the first chunk has
at least 4 bytes, the framed body is reconstructed exactly however the
rest of the stream is chunked. -/
theorem receiveRaw_framed {c : List Nat} {r : List (List Nat)} {len : Nat}
    {body : List Nat}
    (hw : wfStream (c :: r) = true) (hc4 : 4 ≤ c.length)
    (hcat : flat (c :: r) = toBytesBE4 len ++ body)
    (hbody : body.length = len) (hlen : len < 2 ^ 32) :
    receiveRaw (c :: r) = some body := by
  obtain ⟨hne, hrec, hle, hw'⟩ := sockRecv_spec (n := 4) (by norm_num) hw
  set p := sockRecv 4 (c :: r) with hp
  have hp1 : p.1.length = 4 := by
    have : p.1 = if c.length ≤ 4 then c else c.take 4 := by
      by_cases h : c.length ≤ 4 <;> simp [hp, sockRecv, h]
    by_cases h : c.length ≤ 4
    · rw [this, if_pos h]; omega
    · rw [this, if_neg h]; simp [List.length_take]; omega
  have hpfx : p.1 = toBytesBE4 len := by
    have h1 : flat (c :: r) = p.1 ++ flat p.2 := hrec.symm
    rw [h1] at hcat
    have h4 : (toBytesBE4 len).length = 4 := by simp [toBytesBE4]
    exact List.append_inj_left hcat (by omega)
  have hrest : flat p.2 = body := by
    have h1 : flat (c :: r) = p.1 ++ flat p.2 := hrec.symm
    rw [h1, hpfx] at hcat
    exact List.append_cancel_left hcat
  simp only [receiveRaw]
  rw [if_neg (by simpa [List.isEmpty_iff] using hne)]
  rw [← hp, hpfx, intFromBytesBE_toBytesBE4 hlen]
  have := recvBodyF_exact len len p.2 hw' le_rfl (by rw [hrest]; omega)
  rw [recvBody, this, hrest, ← hbody, List.take_length]

theorem renderV_obj_cons (k : List Char) (v : JVal) (tl : JMembers) :
    renderV (.jobj (.cons k v tl)) =
      lbrace :: (renderKV k v ++ renderM tl) ++ [rbrace] := rfl

theorem renderM_cons (k : List Char) (v : JVal) (tl : JMembers) :
    renderM (.cons k v tl) = ',' :: ' ' :: (renderKV k v ++ renderM tl) := rfl

/-! ## Correctness of the decimal and string codecs -/
theorem escStr_append (a b : List Char) :
    escStr (a ++ b) = escStr a ++ escStr b := by
  induction a with
  | nil => rfl
  | cons c cs ih => simp [escStr, ih]

/-- Parsing a rendered string body recovers the original characters and
leaves the trailing input untouched. -/
theorem pStr_escStr (s : List Char) :
    ∀ rest, pStr (escStr s ++ dquote :: rest) = some (s, rest) := by
  induction s with
  | nil =>
    intro rest
    simp only [escStr, List.nil_append]
    rw [pStr.eq_def]
    simp
  | cons c cs ih =>
    intro rest
    by_cases hc : c = dquote ∨ c = bslash
    · have h1 : escStr (c :: cs) = bslash :: c :: escStr cs := by
        simp [escStr, escChar, hc]
      rw [h1, List.cons_append, List.cons_append]
      simp only [pStr]
      simp [hc, ih rest, show ¬ (bslash = dquote) by decide]
    · have h1 : escStr (c :: cs) = c :: escStr cs := by
        simp [escStr, escChar, hc]
      rw [h1, List.cons_append]
      push_neg at hc
      rw [pStr.eq_def]
      simp [hc.1, hc.2, ih rest]

theorem toDigitsAux_eq :
    ∀ (f n : Nat) (acc : List Char), n ≤ f →
      toDigitsAux f n acc = ((Nat.digits 10 n).map Nat.digitChar).reverse ++ acc := by
  intro f
  induction f with
  | zero =>
    intro n acc h
    interval_cases n
    simp [toDigitsAux]
  | succ f ih =>
    intro n acc h
    by_cases hn : n = 0
    · subst hn; simp [toDigitsAux]
    · have hd : Nat.digits 10 n = n % 10 :: Nat.digits 10 (n / 10) :=
        Nat.digits_def' (by norm_num) (Nat.pos_of_ne_zero hn)
      have hle : n / 10 ≤ f := by
        have := Nat.div_lt_self (Nat.pos_of_ne_zero hn) (by norm_num : 1 < 10)
        omega
      simp only [toDigitsAux, if_neg hn]
      rw [ih (n / 10) _ hle, hd]
      simp

theorem renderNat_eq (n : Nat) :
    renderNat n = if n = 0 then ['0']
      else ((Nat.digits 10 n).map Nat.digitChar).reverse := by
  by_cases hn : n = 0
  · simp [renderNat, hn]
  · simp [renderNat, hn, toDigitsAux_eq n n [] le_rfl]

theorem digitChar_isDig {d : Nat} (h : d < 10) :
    isDig (Nat.digitChar d) = true := by
  interval_cases d <;> decide

theorem digitChar_val {d : Nat} (h : d < 10) :
    (Nat.digitChar d).toNat - 48 = d := by
  interval_cases d <;> decide

theorem renderNat_digits (n : Nat) : ∀ c ∈ renderNat n, isDig c = true := by
  rw [renderNat_eq]
  by_cases hn : n = 0
  · simp [hn]; decide
  · rw [if_neg hn]
    intro c hc
    simp only [List.mem_reverse, List.mem_map] at hc
    obtain ⟨d, hd, rfl⟩ := hc
    exact digitChar_isDig (Nat.digits_lt_base (by norm_num) hd)

theorem renderNat_ne_nil (n : Nat) : renderNat n ≠ [] := by
  rw [renderNat_eq]
  by_cases hn : n = 0
  · simp [hn]
  · rw [if_neg hn]
    simp [Nat.digits_ne_nil_iff_ne_zero, hn]

theorem readNat_aux (L : List Nat) (hL : ∀ d ∈ L, d < 10) (a : Nat) :
    ((L.map Nat.digitChar).reverse).foldl (fun x c => x * 10 + (c.toNat - 48)) a
      = a * 10 ^ L.length + Nat.ofDigits 10 L := by
  induction L generalizing a with
  | nil => simp
  | cons d L ih =>
    have hd : d < 10 := hL d (by simp)
    have hL' : ∀ x ∈ L, x < 10 := fun x hx => hL x (by simp [hx])
    simp only [List.map_cons, List.reverse_cons, List.foldl_append, List.foldl_cons,
      List.foldl_nil]
    rw [ih hL']
    rw [digitChar_val hd, Nat.ofDigits_cons]
    simp only [List.length_cons, pow_succ]
    ring

/-- Reading back the decimal rendering of a natural number recovers it. -/
theorem readNat_renderNat (n : Nat) : readNat (renderNat n) = n := by
  rw [renderNat_eq]
  by_cases hn : n = 0
  · simp [hn, readNat]
  · rw [if_neg hn]
    unfold readNat
    rw [readNat_aux _ (fun d hd => Nat.digits_lt_base (by norm_num) hd) 0]
    simp [Nat.ofDigits_digits]

theorem takeWhile_append_of_all {p : Char → Bool} :
    ∀ (ds rest : List Char), (∀ c ∈ ds, p c = true) →
      (∀ c, rest.head? = some c → p c = false) →
      (ds ++ rest).takeWhile p = ds ∧ (ds ++ rest).dropWhile p = rest := by
  intro ds
  induction ds with
  | nil =>
    intro rest _ hrest
    cases rest with
    | nil => simp
    | cons c cs =>
      have := hrest c rfl
      simp [List.takeWhile, List.dropWhile, this]
  | cons d ds ih =>
    intro rest hds hrest
    have hd : p d = true := hds d (by simp)
    have := ih rest (fun c hc => hds c (by simp [hc])) hrest
    simp [List.takeWhile, List.dropWhile, hd, this.1, this.2]

theorem szL_pos (tl : JElems) : 1 ≤ szL tl := by
  cases tl <;> simp [szL]

theorem szM_pos (tl : JMembers) : 1 ≤ szM tl := by
  cases tl <;> simp [szM]

theorem szV_pos (v : JVal) : 1 ≤ szV v := by
  cases v <;> simp [szV]

theorem isDig_ne_delims {c : Char} (h : isDig c = true) :
    c ≠ 'n' ∧ c ≠ 't' ∧ c ≠ 'f' ∧ c ≠ dquote ∧ c ≠ '-' ∧ c ≠ ']' ∧ c ≠ rbrace := by
  refine ⟨?_, ?_, ?_, ?_, ?_, ?_, ?_⟩ <;>
    (rintro rfl; exact absurd h (by decide))

theorem renderV_ne_nil (v : JVal) : renderV v ≠ [] := by
  cases v with
  | jnull => simp [renderV]
  | jbool b => cases b <;> simp [renderV]
  | jnum i =>
    cases i with
    | ofNat n =>
      show renderNat n ≠ []
      exact renderNat_ne_nil n
    | negSucc n => simp [renderV, renderInt]
  | jstr s => simp [renderV]
  | jarr xs => cases xs <;> simp [renderV]
  | jobj kvs => cases kvs <;> simp [renderV]

theorem renderV_head_ne_delims (v : JVal) {c : Char} {cs : List Char}
    (h : renderV v = c :: cs) : c ≠ ']' ∧ c ≠ rbrace := by
  cases v with
  | jnull =>
    simp only [renderV] at h
    obtain ⟨rfl, -⟩ := List.cons.injEq .. ▸ h
    exact ⟨by decide, by decide⟩
  | jbool b =>
    cases b <;> simp only [renderV] at h <;>
      (obtain ⟨rfl, -⟩ := List.cons.injEq .. ▸ h; exact ⟨by decide, by decide⟩)
  | jnum i =>
    cases i with
    | ofNat n =>
      have h2 : renderNat n = c :: cs := h
      have hd : isDig c = true := by
        have := renderNat_digits n c
        rw [h2] at this
        exact this (by simp)
      obtain ⟨-, -, -, -, -, h6, h7⟩ := isDig_ne_delims hd
      exact ⟨h6, h7⟩
    | negSucc n =>
      simp only [renderV, renderInt] at h
      obtain ⟨rfl, -⟩ := List.cons.injEq .. ▸ h
      exact ⟨by decide, by decide⟩
  | jstr s =>
    simp only [renderV, List.cons_append] at h
    obtain ⟨rfl, -⟩ := List.cons.injEq .. ▸ h
    exact ⟨by decide, by decide⟩
  | jarr xs =>
    cases xs <;> simp only [renderV, List.cons_append] at h <;>
      (obtain ⟨rfl, -⟩ := List.cons.injEq .. ▸ h; exact ⟨by decide, by decide⟩)
  | jobj kvs =>
    cases kvs <;> simp only [renderV, List.cons_append] at h <;>
      (obtain ⟨rfl, -⟩ := List.cons.injEq .. ▸ h; exact ⟨by decide, by decide⟩)

theorem headNotDigit_spec {rest : List Char} (h : headNotDigit rest = true) :
    ∀ c, rest.head? = some c → isDig c = false := by
  intro c hc
  cases rest with
  | nil => simp at hc
  | cons d ds =>
    simp at hc
    subst hc
    simpa [headNotDigit] using h

/-- The number branch of the parser undoes `renderInt`. -/
theorem pVal_renderInt (i : Int) (fuel : Nat) (rest : List Char)
    (hfuel : (renderInt i).length ≤ fuel) (hrest : headNotDigit rest = true) :
    pVal fuel (renderInt i ++ rest) = some (.jnum i, rest) := by
  have hspec := headNotDigit_spec hrest
  cases i with
  | ofNat n =>
    cases hr : renderNat n with
    | nil => exact absurd hr (renderNat_ne_nil n)
    | cons d ds =>
      have hd : isDig d = true := by
        have := renderNat_digits n d
        rw [hr] at this
        exact this (by simp)
      have hds : ∀ c ∈ d :: ds, isDig c = true := by
        rw [← hr]
        exact renderNat_digits n
      obtain ⟨h1, h2, h3, h4, h5, -, -⟩ := isDig_ne_delims hd
      have hlen1 : 1 ≤ fuel := by
        have := List.length_pos.mpr (renderNat_ne_nil n)
        simp only [renderInt] at hfuel
        omega
      obtain ⟨f, rfl⟩ : ∃ f, fuel = f + 1 := ⟨fuel - 1, by omega⟩
      have htake := takeWhile_append_of_all (p := isDig) (d :: ds) rest hds hspec
      show pVal (f + 1) (renderNat n ++ rest) = _
      rw [hr, List.cons_append, pVal.eq_def]
      simp only [if_neg h1, if_neg h2, if_neg h3, if_neg h4, if_neg h5, if_pos hd]
      rw [show d :: (ds ++ rest) = (d :: ds) ++ rest from rfl]
      rw [htake.1, htake.2, ← hr, readNat_renderNat]
  | negSucc n =>
    have hlen1 : 1 ≤ fuel := by
      simp only [renderInt] at hfuel
      simp at hfuel
      omega
    obtain ⟨f, rfl⟩ : ∃ f, fuel = f + 1 := ⟨fuel - 1, by omega⟩
    show pVal (f + 1) (('-' :: renderNat (n + 1)) ++ rest) = _
    rw [List.cons_append, pVal.eq_def]
    simp only [if_neg (show ¬('-' = 'n') by decide),
      if_neg (show ¬('-' = 't') by decide), if_neg (show ¬('-' = 'f') by decide),
      if_neg (show ¬('-' = dquote) by decide), if_pos rfl]
    have hds := renderNat_digits (n + 1)
    have htake := takeWhile_append_of_all (p := isDig) (renderNat (n + 1)) rest hds hspec
    rw [htake.1, htake.2]
    cases hr : renderNat (n + 1) with
    | nil => exact absurd hr (renderNat_ne_nil (n + 1))
    | cons d ds =>
      have hread : readNat (d :: ds) = n + 1 := by
        rw [← hr, readNat_renderNat]
      simp [hread, Int.negSucc_eq]

theorem pVal_null (fuel : Nat) (rest : List Char) (h : 1 ≤ fuel) :
    pVal fuel (renderV .jnull ++ rest) = some (.jnull, rest) := by
  obtain ⟨f, rfl⟩ : ∃ f, fuel = f + 1 := ⟨fuel - 1, by omega⟩
  show pVal (f + 1) ('n' :: 'u' :: 'l' :: 'l' :: rest) = _
  rw [pVal.eq_def]
  simp

theorem pVal_bool (b : Bool) (fuel : Nat) (rest : List Char) (h : 1 ≤ fuel) :
    pVal fuel (renderV (.jbool b) ++ rest) = some (.jbool b, rest) := by
  obtain ⟨f, rfl⟩ : ∃ f, fuel = f + 1 := ⟨fuel - 1, by omega⟩
  cases b with
  | true =>
    show pVal (f + 1) ('t' :: 'r' :: 'u' :: 'e' :: rest) = _
    rw [pVal.eq_def]
    simp [show ¬('t' = 'n') by decide]
  | false =>
    show pVal (f + 1) ('f' :: 'a' :: 'l' :: 's' :: 'e' :: rest) = _
    rw [pVal.eq_def]
    simp [show ¬('f' = 'n') by decide, show ¬('f' = 't') by decide]

theorem pVal_str (s : List Char) (fuel : Nat) (rest : List Char) (h : 1 ≤ fuel) :
    pVal fuel (renderV (.jstr s) ++ rest) = some (.jstr s, rest) := by
  obtain ⟨f, rfl⟩ : ∃ f, fuel = f + 1 := ⟨fuel - 1, by omega⟩
  have hin : renderV (.jstr s) ++ rest = dquote :: (escStr s ++ dquote :: rest) := by
    simp [renderV]
  rw [hin, pVal.eq_def]
  simp [show ¬(dquote = 'n') by decide, show ¬(dquote = 't') by decide,
    show ¬(dquote = 'f') by decide, pStr_escStr]

theorem pVal_arr_nil (fuel : Nat) (rest : List Char) (h : 1 ≤ fuel) :
    pVal fuel (renderV (.jarr .nil) ++ rest) = some (.jarr .nil, rest) := by
  obtain ⟨f, rfl⟩ : ∃ f, fuel = f + 1 := ⟨fuel - 1, by omega⟩
  show pVal (f + 1) ('[' :: ']' :: rest) = _
  rw [pVal.eq_def]
  simp [show ¬('[' = 'n') by decide, show ¬('[' = 't') by decide,
    show ¬('[' = 'f') by decide, show ¬('[' = dquote) by decide,
    show ¬('[' = '-') by decide, show isDig '[' = false by decide]

theorem pVal_obj_nil (fuel : Nat) (rest : List Char) (h : 1 ≤ fuel) :
    pVal fuel (renderV (.jobj .nil) ++ rest) = some (.jobj .nil, rest) := by
  obtain ⟨f, rfl⟩ : ∃ f, fuel = f + 1 := ⟨fuel - 1, by omega⟩
  show pVal (f + 1) (lbrace :: rbrace :: rest) = _
  rw [pVal.eq_def]
  simp [show ¬(lbrace = 'n') by decide, show ¬(lbrace = 't') by decide,
    show ¬(lbrace = 'f') by decide, show ¬(lbrace = dquote) by decide,
    show ¬(lbrace = '-') by decide, show isDig lbrace = false by decide,
    show ¬(lbrace = '[') by decide]

/-- Main round-trip statement, proved by strong induction on the size of
the value: parsing a rendered well-formed value (with any trailing input
not starting with a digit, and any fuel of at least the rendered length)
returns exactly that value and the trailing input. -/
theorem parse_render_all :
    ∀ N : Nat,
      (∀ v, szV v ≤ N → wfV v = true → ∀ fuel rest,
        (renderV v).length ≤ fuel → headNotDigit rest = true →
        pVal fuel (renderV v ++ rest) = some (v, rest)) ∧
      (∀ w tl, szV w + szL tl ≤ N → wfV w = true → wfL tl = true →
        ∀ fuel rest, (renderV w).length + (renderL tl).length + 1 ≤ fuel →
        pElems fuel ((renderV w ++ renderL tl) ++ ']' :: rest)
          = some (.cons w tl, rest)) ∧
      (∀ k w tl, szV w + szM tl ≤ N → wfV w = true → wfM tl = true →
        ∀ fuel rest, (renderKV k w).length + (renderM tl).length + 1 ≤ fuel →
        pMembers fuel ((renderKV k w ++ renderM tl) ++ rbrace :: rest)
          = some (.cons k w tl, rest)) := by
  intro N
  induction N using Nat.strong_induction_on with
  | _ N ih =>
    refine ⟨?_, ?_, ?_⟩
    · intro v hsz hwf fuel rest hfuel hrest
      have hlen1 : 1 ≤ fuel :=
        le_trans (List.length_pos.mpr (renderV_ne_nil v)) hfuel
      cases v with
      | jnull => exact pVal_null fuel rest hlen1
      | jbool b => exact pVal_bool b fuel rest hlen1
      | jnum i => exact pVal_renderInt i fuel rest hfuel hrest
      | jstr s => exact pVal_str s fuel rest hlen1
      | jarr xs =>
        cases xs with
        | nil => exact pVal_arr_nil fuel rest hlen1
        | cons w tl =>
          obtain ⟨f, rfl⟩ : ∃ f, fuel = f + 1 := ⟨fuel - 1, by omega⟩
          have hm : szV w + szL tl < N := by
            simp only [szV, szL] at hsz
            omega
          obtain ⟨hwfW, hwfT⟩ : wfV w = true ∧ wfL tl = true := by
            simpa [wfV, wfL] using hwf
          obtain ⟨c0, cs0, hw0⟩ : ∃ c0 cs0, renderV w = c0 :: cs0 := by
            cases hq : renderV w with
            | nil => exact absurd hq (renderV_ne_nil w)
            | cons a t => exact ⟨a, t, rfl⟩
          have hc0 : c0 ≠ ']' := (renderV_head_ne_delims w hw0).1
          have hfl : (renderV w).length + (renderL tl).length + 1 ≤ f := by
            have : (renderV (.jarr (.cons w tl))).length
                = (renderV w).length + (renderL tl).length + 2 := by
              simp [renderV]
              omega
            omega
          have hinput : renderV (.jarr (.cons w tl)) ++ rest
              = '[' :: (c0 :: (cs0 ++ (renderL tl ++ (']' :: rest)))) := by
            simp [renderV, hw0]
          have harg : (renderV w ++ renderL tl) ++ ']' :: rest
              = c0 :: (cs0 ++ (renderL tl ++ (']' :: rest))) := by
            simp [hw0]
          rw [hinput, pVal.eq_def]
          simp only [if_neg (show ¬('[' = 'n') by decide),
            if_neg (show ¬('[' = 't') by decide),
            if_neg (show ¬('[' = 'f') by decide),
            if_neg (show ¬('[' = dquote) by decide),
            if_neg (show ¬('[' = '-') by decide),
            show isDig '[' = false by decide, Bool.false_eq_true, if_false,
            if_pos rfl, if_neg hc0]
          rw [← harg, (ih _ hm).2.1 w tl le_rfl hwfW hwfT f rest hfl]
          rfl
      | jobj kvs =>
        cases kvs with
        | nil => exact pVal_obj_nil fuel rest hlen1
        | cons k w tl =>
          obtain ⟨f, rfl⟩ : ∃ f, fuel = f + 1 := ⟨fuel - 1, by omega⟩
          have hm : szV w + szM tl < N := by
            simp only [szV, szM] at hsz
            omega
          obtain ⟨⟨hwfK, hwfW⟩, hwfT⟩ :
              (wfStr k = true ∧ wfV w = true) ∧ wfM tl = true := by
            simpa [wfV, wfM] using hwf
          have hfl : (renderKV k w).length + (renderM tl).length + 1 ≤ f := by
            have : (renderV (.jobj (.cons k w tl))).length
                = (renderKV k w).length + (renderM tl).length + 2 := by
              rw [renderV_obj_cons]
              simp
              omega
            omega
          have hinput : renderV (.jobj (.cons k w tl)) ++ rest
              = lbrace :: (dquote ::
                ((escStr k ++ [dquote] ++ (':' :: ' ' :: renderV w))
                  ++ (renderM tl ++ (rbrace :: rest)))) := by
            rw [renderV_obj_cons]
            simp [renderKV]
          have harg : (renderKV k w ++ renderM tl) ++ rbrace :: rest
              = dquote :: ((escStr k ++ [dquote] ++ (':' :: ' ' :: renderV w))
                  ++ (renderM tl ++ (rbrace :: rest))) := by
            simp [renderKV]
          rw [hinput, pVal.eq_def]
          simp only [if_neg (show ¬(lbrace = 'n') by decide),
            if_neg (show ¬(lbrace = 't') by decide),
            if_neg (show ¬(lbrace = 'f') by decide),
            if_neg (show ¬(lbrace = dquote) by decide),
            if_neg (show ¬(lbrace = '-') by decide),
            show isDig lbrace = false by decide, Bool.false_eq_true, if_false,
            if_neg (show ¬(lbrace = '[') by decide),
            if_pos rfl, if_neg (show ¬(dquote = rbrace) by decide)]
          rw [← harg, (ih _ hm).2.2 k w tl le_rfl hwfW hwfT f rest hfl]
          rfl
    · intro w tl hsz hwfW hwfT fuel rest hfuel
      have h1 : 1 ≤ (renderV w).length := List.length_pos.mpr (renderV_ne_nil w)
      obtain ⟨g, rfl⟩ : ∃ g, fuel = g + 1 := ⟨fuel - 1, by omega⟩
      have hmV : szV w < N := by
        have := szL_pos tl
        omega
      rw [pElems.eq_def]
      simp only [List.append_assoc]
      have hhead : headNotDigit (renderL tl ++ ']' :: rest) = true := by
        cases tl with
        | nil => simp [renderL, headNotDigit]; decide
        | cons w2 tl2 => simp [renderL, headNotDigit]; decide
      rw [(ih _ hmV).1 w le_rfl hwfW g (renderL tl ++ ']' :: rest) (by omega) hhead]
      cases tl with
      | nil =>
        simp [renderL]
      | cons w2 tl2 =>
        have hm2 : szV w2 + szL tl2 < N := by
          simp only [szL] at hsz
          have := szV_pos w
          omega
        have hfl2 : (renderV w2).length + (renderL tl2).length + 1 ≤ g := by
          have : (renderL (.cons w2 tl2)).length
              = (renderV w2).length + (renderL tl2).length + 2 := by
            simp [renderL]
          omega
        have hargY : renderL (.cons w2 tl2) ++ ']' :: rest
            = ',' :: ' ' :: ((renderV w2 ++ renderL tl2) ++ ']' :: rest) := by
          simp [renderL]
        rw [hargY]
        obtain ⟨hwfW2, hwfT2⟩ : wfV w2 = true ∧ wfL tl2 = true := by
          simpa [wfL] using hwfT
        simp only [show ¬(',' = ']') by decide, false_and, if_false]
        rw [(ih _ hm2).2.1 w2 tl2 le_rfl hwfW2 hwfT2 g rest hfl2]
        rfl
    · intro k w tl hsz hwfW hwfT fuel rest hfuel
      have h1 : 1 ≤ (renderV w).length := List.length_pos.mpr (renderV_ne_nil w)
      obtain ⟨g, rfl⟩ : ∃ g, fuel = g + 1 := ⟨fuel - 1, by omega⟩
      have hmV : szV w < N := by
        have := szM_pos tl
        omega
      have hkv : (renderKV k w).length = (escStr k).length + (renderV w).length + 4 := by
        simp [renderKV]
        omega
      have hinput : (renderKV k w ++ renderM tl) ++ rbrace :: rest
          = dquote :: (escStr k ++ dquote ::
            (':' :: ' ' :: (renderV w ++ (renderM tl ++ rbrace :: rest)))) := by
        simp [renderKV]
      rw [hinput, pMembers.eq_def]
      simp only [if_pos rfl, pStr_escStr, Option.map_some']
      have hhead : headNotDigit (renderM tl ++ rbrace :: rest) = true := by
        cases tl with
        | nil => simp [renderM, headNotDigit]; decide
        | cons k2 w2 tl2 => simp [renderM_cons, headNotDigit]; decide
      rw [(ih _ hmV).1 w le_rfl hwfW g (renderM tl ++ rbrace :: rest) (by omega) hhead]
      cases tl with
      | nil =>
        simp only [renderM, List.nil_append]
        simp [show ¬(rbrace = ',') by decide]
      | cons k2 w2 tl2 =>
        have hm2 : szV w2 + szM tl2 < N := by
          simp only [szM] at hsz
          have := szV_pos w
          omega
        have hfl2 : (renderKV k2 w2).length + (renderM tl2).length + 1 ≤ g := by
          have : (renderM (.cons k2 w2 tl2)).length
              = (renderKV k2 w2).length + (renderM tl2).length + 2 := by
            rw [renderM_cons]
            simp
          omega
        have hargY : renderM (.cons k2 w2 tl2) ++ rbrace :: rest
            = ',' :: ' ' :: ((renderKV k2 w2 ++ renderM tl2) ++ rbrace :: rest) := by
          rw [renderM_cons]
          simp
        rw [hargY]
        obtain ⟨hwfW2, hwfT2⟩ : (wfStr k2 && wfV w2) = true ∧ wfM tl2 = true := by
          simpa [wfM] using hwfT
        obtain ⟨hk2, hw2⟩ : wfStr k2 = true ∧ wfV w2 = true := by
          simpa using hwfW2
        simp only [if_true]
        rw [(ih _ hm2).2.2 k2 w2 tl2 le_rfl hw2 hwfT2 g rest hfl2]
        rfl

/-- Parsing a whole rendered document (model of
`json.loads(json.dumps(x))`) returns the original value. -/
theorem parse_message_renderV {v : JVal} (hwf : wfV v = true) :
    parse_message (renderV v) = some v := by
  unfold parse_message
  have h := (parse_render_all (szV v)).1 v le_rfl hwf ((renderV v).length + 1) []
    (by omega) (by rfl)
  simp only [List.append_nil] at h
  rw [h]

theorem asciiStr_append (a b : List Char) :
    asciiStr (a ++ b) = (asciiStr a && asciiStr b) := by
  simp [asciiStr]

theorem escStr_ascii {s : List Char} (h : wfStr s = true) :
    asciiStr (escStr s) = true := by
  induction s with
  | nil => rfl
  | cons a as ih =>
    obtain ⟨ha, has⟩ : wfChar a = true ∧ wfStr as = true := by
      simpa [wfStr] using h
    have ha' : a.toNat < 128 := by
      simp [wfChar] at ha
      omega
    show asciiStr (escChar a ++ escStr as) = true
    rw [asciiStr_append, ih has, Bool.and_true]
    by_cases hq : a = dquote ∨ a = bslash
    · simp [escChar, hq, asciiStr, ha']
      decide
    · simp [escChar, hq, asciiStr, ha']

theorem renderNat_ascii (n : Nat) : asciiStr (renderNat n) = true := by
  have h := renderNat_digits n
  simp only [asciiStr, List.all_eq_true]
  intro c hc
  have := h c hc
  simp [isDig] at this
  simp
  omega

theorem renderInt_ascii (i : Int) : asciiStr (renderInt i) = true := by
  cases i with
  | ofNat n => exact renderNat_ascii n
  | negSucc n =>
    show asciiStr ('-' :: renderNat (n + 1)) = true
    have := renderNat_ascii (n + 1)
    simp [asciiStr] at this ⊢
    exact fun c hc => this c hc

/-- Everything `json.dumps` emits for a well-formed value is ASCII (below
code point 128), so UTF-8 encoding is byte-for-byte the character codes. -/
theorem renderV_ascii_all :
    ∀ N : Nat,
      (∀ v, szV v ≤ N → wfV v = true → asciiStr (renderV v) = true) ∧
      (∀ tl, szL tl ≤ N → wfL tl = true → asciiStr (renderL tl) = true) ∧
      (∀ tl, szM tl ≤ N → wfM tl = true → asciiStr (renderM tl) = true) := by
  intro N
  induction N using Nat.strong_induction_on with
  | _ N ih =>
    refine ⟨?_, ?_, ?_⟩
    · intro v hsz hwf
      cases v with
      | jnull => decide
      | jbool b => cases b <;> decide
      | jnum i => exact renderInt_ascii i
      | jstr s =>
        show asciiStr ((dquote :: escStr s) ++ [dquote]) = true
        rw [asciiStr_append]
        have he := escStr_ascii (by simpa [wfV] using hwf)
        simp [asciiStr] at he ⊢
        refine ⟨⟨by decide, fun c hc => he c hc⟩, by decide⟩
      | jarr xs =>
        cases xs with
        | nil => decide
        | cons w tl =>
          have hm : szV w + szL tl < N := by
            simp only [szV, szL] at hsz
            omega
          obtain ⟨hwfW, hwfT⟩ : wfV w = true ∧ wfL tl = true := by
            simpa [wfV, wfL] using hwf
          have h1 := (ih _ hm).1 w (by have := szL_pos tl; omega) hwfW
          have h2 := (ih _ hm).2.1 tl (by have := szV_pos w; omega) hwfT
          show asciiStr ('[' :: (renderV w ++ renderL tl) ++ [']']) = true
          rw [show '[' :: (renderV w ++ renderL tl) ++ [']']
              = ['['] ++ (renderV w ++ renderL tl) ++ [']'] from rfl]
          rw [asciiStr_append, asciiStr_append, asciiStr_append, h1, h2]
          decide
      | jobj kvs =>
        cases kvs with
        | nil => decide
        | cons k w tl =>
          have hm : szV w + szM tl < N := by
            simp only [szV, szM] at hsz
            omega
          obtain ⟨⟨hwfK, hwfW⟩, hwfT⟩ :
              (wfStr k = true ∧ wfV w = true) ∧ wfM tl = true := by
            simpa [wfV, wfM] using hwf
          have h1 := (ih _ hm).1 w (by have := szM_pos tl; omega) hwfW
          have h2 := (ih _ hm).2.2 tl (by have := szV_pos w; omega) hwfT
          have hk := escStr_ascii hwfK
          rw [renderV_obj_cons]
          rw [show lbrace :: (renderKV k w ++ renderM tl) ++ [rbrace]
              = [lbrace] ++ (renderKV k w ++ renderM tl) ++ [rbrace] from rfl]
          rw [asciiStr_append, asciiStr_append, asciiStr_append]
          rw [show renderKV k w
              = [dquote] ++ escStr k ++ [dquote, ':', ' '] ++ renderV w from by
            simp [renderKV]]
          rw [asciiStr_append, asciiStr_append, asciiStr_append, h1, h2, hk]
          decide
    · intro tl hsz hwfT
      cases tl with
      | nil => rfl
      | cons w tl2 =>
        have hm : szV w + szL tl2 < N := by
          simp only [szL] at hsz
          omega
        obtain ⟨hwfW, hwfT2⟩ : wfV w = true ∧ wfL tl2 = true := by
          simpa [wfL] using hwfT
        have h1 := (ih _ hm).1 w (by have := szL_pos tl2; omega) hwfW
        have h2 := (ih _ hm).2.1 tl2 (by have := szV_pos w; omega) hwfT2
        show asciiStr ([',', ' '] ++ (renderV w ++ renderL tl2)) = true
        rw [asciiStr_append, asciiStr_append, h1, h2]
        decide
    · intro tl hsz hwfT
      cases tl with
      | nil => rfl
      | cons k w tl2 =>
        have hm : szV w + szM tl2 < N := by
          simp only [szM] at hsz
          omega
        obtain ⟨hwfKW, hwfT2⟩ : (wfStr k && wfV w) = true ∧ wfM tl2 = true := by
          simpa [wfM] using hwfT
        obtain ⟨hwfK, hwfW⟩ : wfStr k = true ∧ wfV w = true := by
          simpa using hwfKW
        have h1 := (ih _ hm).1 w (by have := szM_pos tl2; omega) hwfW
        have h2 := (ih _ hm).2.2 tl2 (by have := szV_pos w; omega) hwfT2
        have hk := escStr_ascii hwfK
        rw [renderM_cons]
        rw [show ',' :: ' ' :: (renderKV k w ++ renderM tl2)
            = [',', ' '] ++ (renderKV k w ++ renderM tl2) from rfl]
        rw [asciiStr_append, asciiStr_append]
        rw [show renderKV k w
            = [dquote] ++ escStr k ++ [dquote, ':', ' '] ++ renderV w from by
          simp [renderKV]]
        rw [asciiStr_append, asciiStr_append, asciiStr_append, h1, h2, hk]
        decide

theorem renderV_ascii {v : JVal} (hwf : wfV v = true) :
    asciiStr (renderV v) = true :=
  (renderV_ascii_all (szV v)).1 v le_rfl hwf

theorem decodeUtf8_encodeUtf8 {s : List Char} (h : asciiStr s = true) :
    decodeUtf8 (encodeUtf8 s) = some s := by
  induction s with
  | nil => rfl
  | cons c cs ih =>
    obtain ⟨hc, hcs⟩ : c.toNat < 128 ∧ asciiStr cs = true := by
      simpa [asciiStr] using h
    show decodeUtf8 (c.toNat :: encodeUtf8 cs) = some (c :: cs)
    simp only [decodeUtf8, if_pos hc]
    rw [ih hcs]
    simp [Char.ofNat_toNat]

theorem create_message_eq_renderV (msg_type : List Char) (payload : JMembers) :
    create_message msg_type (some payload)
      = renderV (.jobj (.cons typeKey (.jstr msg_type)
          (.cons dataKey (.jobj payload) .nil))) := by
  cases payload <;> rfl

theorem wf_msgKind {kind : List Char} (hk : kind ∈ msgKinds) :
    wfStr kind = true := by
  fin_cases hk <;> decide

/-- The framed `{type, data}` message round-trips through the wire: for
every message kind and well-formed payload object, receiving the frame
produced by `send_message` parses back to exactly the original kind and
payload. -/
theorem send_receive_roundtrip {msg_type : List Char} {payload : JMembers}
    {frame : List Nat}
    (hk : msg_type ∈ msgKinds) (hwf : wfM payload = true)
    (hfr : send_message msg_type (some payload) = some frame) :
    receive_message [frame] = .ok (some (.jobj (.cons typeKey (.jstr msg_type)
      (.cons dataKey (.jobj payload) .nil)))) := by
  set v : JVal := .jobj (.cons typeKey (.jstr msg_type)
    (.cons dataKey (.jobj payload) .nil)) with hv
  have hcr : create_message msg_type (some payload) = renderV v :=
    create_message_eq_renderV msg_type payload
  have hwfv : wfV v = true := by
    rw [hv]
    simp [wfV, wfM, wf_msgKind hk, hwf,
      show wfStr typeKey = true by decide, show wfStr dataKey = true by decide]
  unfold send_message at hfr
  rw [hcr] at hfr
  by_cases hlen : (encodeUtf8 (renderV v)).length < 2 ^ 32
  · rw [if_pos hlen] at hfr
    obtain rfl : toBytesBE4 (encodeUtf8 (renderV v)).length
        ++ encodeUtf8 (renderV v) = frame := by
      simpa using hfr
    have hraw : receiveRaw [toBytesBE4 (encodeUtf8 (renderV v)).length
        ++ encodeUtf8 (renderV v)] = some (encodeUtf8 (renderV v)) := by
      exact @receiveRaw_framed
        (toBytesBE4 (encodeUtf8 (renderV v)).length ++ encodeUtf8 (renderV v))
        [] (encodeUtf8 (renderV v)).length (encodeUtf8 (renderV v))
        (by simp [wfStream, List.isEmpty_iff, toBytesBE4])
        (by simp [toBytesBE4]) (by simp [flat]) rfl hlen
    unfold receive_message
    simp [hraw, decodeUtf8_encodeUtf8 (renderV_ascii hwfv),
      parse_message_renderV hwfv]
  · rw [if_neg hlen] at hfr
    exact absurd hfr (by simp)

/-- When the stream ends before the declared body length arrives (but the
full 4-byte length field was in the first read), `receive_message` returns
Python `None` (`Except.ok none`); nothing is raised. -/
theorem receiveRaw_truncated {c : List Nat} {r : List (List Nat)} {len : Nat}
    {body : List Nat}
    (hw : wfStream (c :: r) = true) (hc4 : 4 ≤ c.length)
    (hcat : flat (c :: r) = toBytesBE4 len ++ body)
    (hbody : body.length < len) (hlen : len < 2 ^ 32) :
    receiveRaw (c :: r) = none := by
  obtain ⟨hne, hrec, hle, hw'⟩ := sockRecv_spec (n := 4) (by norm_num) hw
  set p := sockRecv 4 (c :: r) with hp
  have hp1 : p.1.length = 4 := by
    have hform : p.1 = if c.length ≤ 4 then c else c.take 4 := by
      by_cases h : c.length ≤ 4 <;> simp [hp, sockRecv, h]
    by_cases h : c.length ≤ 4
    · rw [hform, if_pos h]; omega
    · rw [hform, if_neg h]; simp [List.length_take]; omega
  have hpfx : p.1 = toBytesBE4 len := by
    have h1 : flat (c :: r) = p.1 ++ flat p.2 := hrec.symm
    rw [h1] at hcat
    have h4 : (toBytesBE4 len).length = 4 := by simp [toBytesBE4]
    exact List.append_inj_left hcat (by omega)
  have hrest : flat p.2 = body := by
    have h1 : flat (c :: r) = p.1 ++ flat p.2 := hrec.symm
    rw [h1, hpfx] at hcat
    exact List.append_cancel_left hcat
  simp only [receiveRaw]
  rw [if_neg (by simpa [List.isEmpty_iff] using hne)]
  rw [← hp, hpfx, intFromBytesBE_toBytesBE4 hlen]
  exact recvBodyF_short len len p.2 hw' le_rfl (by rw [hrest]; omega)

/-! ## Properties of distribution -/
/-- With no failing connection, the distribute loop sends task `i` to
worker `worker_list[i mod num_workers]` with payload id `id(genome)`, and
leaves the registry untouched. -/
theorem distributeLoop_good (wl : List (Nat × WConn))
    (hgood : ∀ w ∈ wl, w.2.broken = false) :
    ∀ (gs : List PyGenome) (i : Nat) (ws : List (Nat × WConn)),
      distributeLoop wl i gs ws
        = ((List.enumFrom i gs).map
            (fun p => ((wl.getD (p.1 % wl.length) (0, ⟨false⟩)).1,
              ⟨p.2.pyId, p.2.dat⟩)), .ok ws) := by
  intro gs
  induction gs with
  | nil => intro i ws; rfl
  | cons g rest ih =>
    intro i ws
    have hb : (wl.getD (i % wl.length) (0, ⟨false⟩)).2.broken = false := by
      cases wl with
      | nil => rfl
      | cons w0 wr =>
        have hlt : i % (w0 :: wr).length < (w0 :: wr).length :=
          Nat.mod_lt _ (by simp)
        rw [List.getD_eq_getElem _ _ hlt]
        exact hgood _ (List.getElem_mem hlt)
    simp only [distributeLoop, hb, Bool.false_eq_true, if_false,
      ih (i + 1) ws, List.enumFrom_cons, List.map_cons]
    rfl

theorem count_range_mod (N W j : Nat) (hW : 0 < W) (hjW : j < W) :
    ((List.range N).countP (fun i => i % W == j))
      = N / W + (if j < N % W then 1 else 0) := by
  induction N with
  | zero => simp [Nat.zero_div, Nat.zero_mod]
  | succ n ihN =>
    rw [List.range_succ, List.countP_append, ihN]
    have hq := Nat.div_add_mod n W
    have hmlt : n % W < W := Nat.mod_lt _ hW
    have hcnt : (List.countP (fun i => i % W == j) [n])
        = if n % W = j then 1 else 0 := by
      by_cases hj : n % W = j
      · simp [List.countP_cons, hj]
      · have hb : (n % W == j) = false := by simp [hj]
        simp [List.countP_cons, hb, hj]
    rw [hcnt]
    by_cases hr : n % W + 1 = W
    · have h2 : n + 1 = (n / W + 1) * W := by
        rw [Nat.add_mul, Nat.one_mul, Nat.mul_comm]
        omega
      have hdiv : (n + 1) / W = n / W + 1 := by
        rw [h2, Nat.mul_div_cancel _ hW]
      have hmod : (n + 1) % W = 0 := by
        rw [h2, Nat.mul_mod_left]
      rw [hdiv, hmod]
      by_cases hj : n % W = j
      · rw [if_pos hj, if_neg (by omega), if_neg (Nat.not_lt_zero j)]
      · have hj2 : j < n % W := by omega
        rw [if_neg hj, if_pos hj2, if_neg (Nat.not_lt_zero j)]
    · have h2 : n + 1 = (n % W + 1) + W * (n / W) := by omega
      have hdiv : (n + 1) / W = n / W := by
        rw [h2, Nat.add_mul_div_left _ _ hW, Nat.div_eq_of_lt (by omega)]
        omega
      have hmod : (n + 1) % W = n % W + 1 := by
        rw [h2, Nat.add_mul_mod_self_left, Nat.mod_eq_of_lt (by omega)]
      rw [hdiv, hmod]
      by_cases hj : n % W = j
      · rw [if_pos hj, if_neg (by omega), if_pos (by omega)]
      · by_cases hlt : j < n % W
        · rw [if_neg hj, if_pos hlt, if_pos (by omega)]
        · rw [if_neg hj, if_neg hlt, if_neg (by omega)]

/-- Each worker's share is the floor or the ceiling of `N / W` (ceiling
written as `(N + W - 1) / W`). -/
theorem floor_or_ceil (N W j : Nat) (hW : 0 < W) :
    N / W + (if j < N % W then 1 else 0) = N / W ∨
    N / W + (if j < N % W then 1 else 0) = (N + W - 1) / W := by
  by_cases h : j < N % W
  · right
    rw [if_pos h]
    have hmlt : N % W < W := Nat.mod_lt _ hW
    have hq := Nat.div_add_mod N W
    have key : (N + W - 1) / W = N / W + 1 := by
      have h2 : N + W - 1 = (N % W - 1) + W * (N / W + 1) := by
        rw [Nat.mul_succ]
        omega
      rw [h2, Nat.add_mul_div_left _ _ hW, Nat.div_eq_of_lt (by omega)]
      omega
    omega
  · left
    rw [if_neg h]
    omega

/-! ## Association list and collection lemmas -/
theorem lookup_none_iff (res : List (Nat × ℚ)) (k : Nat) :
    res.lookup k = none ↔ k ∉ res.map Prod.fst := by
  induction res with
  | nil => simp
  | cons a t ih =>
    by_cases hk : k = a.1
    · simp [List.lookup, hk]
    · have : (k == a.1) = false := by simp [hk]
      simp [List.lookup, this, ih, hk]

theorem lookup_isSome_iff (res : List (Nat × ℚ)) (k : Nat) :
    (res.lookup k).isSome = true ↔ k ∈ res.map Prod.fst := by
  constructor
  · intro h
    by_contra hk
    rw [(lookup_none_iff res k).mpr hk] at h
    simp at h
  · intro h
    cases hq : res.lookup k with
    | none => exact absurd h ((lookup_none_iff res k).mp hq)
    | some v => rfl

theorem map_fst_overwrite (res : List (Nat × ℚ)) (m : Nat × ℚ) :
    (res.map (fun p => if p.1 = m.1 then m else p)).map Prod.fst
      = res.map Prod.fst := by
  induction res with
  | nil => rfl
  | cons a t ih =>
    simp only [List.map_cons]
    rw [ih]
    by_cases ha : a.1 = m.1
    · simp [ha]
    · simp [ha]

theorem recordResult_keys (res : List (Nat × ℚ)) (m : Nat × ℚ) :
    (recordResult res m).map Prod.fst =
      if (res.lookup m.1).isSome then res.map Prod.fst
      else res.map Prod.fst ++ [m.1] := by
  unfold recordResult
  by_cases hs : (res.lookup m.1).isSome
  · rw [if_pos hs, if_pos hs]
    exact map_fst_overwrite res m
  · rw [if_neg hs, if_neg hs]
    simp

theorem recordResult_length (res : List (Nat × ℚ)) (m : Nat × ℚ) :
    (recordResult res m).length =
      if (res.lookup m.1).isSome then res.length else res.length + 1 := by
  unfold recordResult
  by_cases hs : (res.lookup m.1).isSome
  · rw [if_pos hs, if_pos hs, List.length_map]
  · rw [if_neg hs, if_neg hs, List.length_append, List.length_singleton]

theorem collectPass_length_ge (msgs : List (Nat × ℚ)) :
    ∀ res, res.length ≤ (collectPass res msgs).length := by
  induction msgs with
  | nil => intro res; simp [collectPass]
  | cons m rest ih =>
    intro res
    have h1 : res.length ≤ (recordResult res m).length := by
      rw [recordResult_length]
      split <;> omega
    exact le_trans h1 (ih (recordResult res m))

/-- Recording a batch of messages with fresh, pairwise distinct ids appends
exactly those ids to the key list. -/
theorem collectPass_keys_fresh :
    ∀ (msgs : List (Nat × ℚ)) (res : List (Nat × ℚ)),
      (msgs.map Prod.fst).Nodup →
      (∀ k ∈ msgs.map Prod.fst, res.lookup k = none) →
      (collectPass res msgs).map Prod.fst
        = res.map Prod.fst ++ msgs.map Prod.fst := by
  intro msgs
  induction msgs with
  | nil => intro res _ _; simp [collectPass]
  | cons m rest ih =>
    intro res hnd hfresh
    have hm : res.lookup m.1 = none := hfresh m.1 (by simp)
    have hrec : (recordResult res m).map Prod.fst = res.map Prod.fst ++ [m.1] := by
      rw [recordResult_keys, if_neg (by simp [hm])]
    obtain ⟨hm_notin, hnd'⟩ :
        m.1 ∉ rest.map Prod.fst ∧ (rest.map Prod.fst).Nodup := by
      rw [List.map_cons, List.nodup_cons] at hnd
      exact hnd
    have hfresh' : ∀ k ∈ rest.map Prod.fst, (recordResult res m).lookup k = none := by
      intro k hk
      rw [lookup_none_iff, hrec]
      simp only [List.mem_append, List.mem_singleton]
      rintro (hcontra | rfl)
      · exact (lookup_none_iff res k).mp (hfresh k (by simp [hk])) hcontra
      · exact hm_notin hk
    show (collectPass (recordResult res m) rest).map Prod.fst = _
    rw [ih (recordResult res m) hnd' hfresh', hrec]
    simp

/-- If fewer results than expected ever arrive, the collection loop's
guard stays true throughout and every polling pass is processed. -/
theorem collectLoop_runs_all (expected : Nat) :
    ∀ (passes : List (List (Nat × ℚ))) (res : List (Nat × ℚ)),
      (collectPass res passes.flatten).length < expected →
      collectLoop expected passes res = collectPass res passes.flatten := by
  intro passes
  induction passes with
  | nil => intro res _; rfl
  | cons p ps ih =>
    intro res hlt
    have hsplit : collectPass res ((p :: ps).flatten)
        = collectPass (collectPass res p) ps.flatten := by
      simp [collectPass, List.foldl_append]
    have hguard : res.length < expected := by
      have h1 := collectPass_length_ge ((p :: ps).flatten) res
      omega
    show (if res.length < expected then collectLoop expected ps (collectPass res p)
      else res) = _
    rw [if_pos hguard, hsplit]
    exact ih (collectPass res p) (by rw [← hsplit]; exact hlt)

/-! ## Result set invariants (for the registry-bound claim) -/
theorem collectPass_invariant (taskIds : List Nat) :
    ∀ (msgs : List (Nat × ℚ)) (res : List (Nat × ℚ)),
      ((res.map Prod.fst).Nodup ∧ ∀ k ∈ res.map Prod.fst, k ∈ taskIds) →
      (∀ m ∈ msgs, m.1 ∈ taskIds) →
      ((collectPass res msgs).map Prod.fst).Nodup ∧
        ∀ k ∈ (collectPass res msgs).map Prod.fst, k ∈ taskIds := by
  intro msgs
  induction msgs with
  | nil => intro res h _; exact h
  | cons m rest ih =>
    intro res ⟨hnd, hsub⟩ hvalid
    have hstep : ((recordResult res m).map Prod.fst).Nodup ∧
        ∀ k ∈ (recordResult res m).map Prod.fst, k ∈ taskIds := by
      rw [recordResult_keys]
      by_cases hs : (res.lookup m.1).isSome
      · rw [if_pos hs]
        exact ⟨hnd, hsub⟩
      · rw [if_neg hs]
        have hnotin : m.1 ∉ res.map Prod.fst := by
          intro hmem
          exact hs ((lookup_isSome_iff res m.1).mpr hmem)
        constructor
        · rw [List.nodup_append_comm, List.singleton_append]
          exact List.nodup_cons.mpr ⟨hnotin, hnd⟩
        · intro k hk
          rcases List.mem_append.mp hk with hk | hk
          · exact hsub k hk
          · simp at hk
            subst hk
            exact hvalid m (by simp)
    exact ih (recordResult res m) hstep (fun x hx => hvalid x (by simp [hx]))

theorem collectLoop_invariant (expected : Nat) (taskIds : List Nat) :
    ∀ (passes : List (List (Nat × ℚ))) (res : List (Nat × ℚ)),
      ((res.map Prod.fst).Nodup ∧ ∀ k ∈ res.map Prod.fst, k ∈ taskIds) →
      (∀ p ∈ passes, ∀ m ∈ p, m.1 ∈ taskIds) →
      ((collectLoop expected passes res).map Prod.fst).Nodup ∧
        ∀ k ∈ (collectLoop expected passes res).map Prod.fst, k ∈ taskIds := by
  intro passes
  induction passes with
  | nil => intro res h _; exact h
  | cons p ps ih =>
    intro res h hvalid
    have hstep : collectLoop expected (p :: ps) res
        = if res.length < expected then
            collectLoop expected ps (collectPass res p)
          else res := rfl
    rw [hstep]
    by_cases hg : res.length < expected
    · rw [if_pos hg]
      exact ih (collectPass res p)
        (collectPass_invariant taskIds p res h (hvalid p (by simp)))
        (fun q hq => hvalid q (by simp [hq]))
    · rw [if_neg hg]
      exact h

theorem nodup_subset_length {l1 l2 : List Nat} (h1 : l1.Nodup)
    (h2 : ∀ k ∈ l1, k ∈ l2) : l1.length ≤ l2.length := by
  calc l1.length = l1.toFinset.card := (List.toFinset_card_of_nodup h1).symm
    _ ≤ l2.toFinset.card := Finset.card_le_card (by
        intro a ha
        rw [List.mem_toFinset] at ha ⊢
        exact h2 a ha)
    _ ≤ l2.length := l2.toFinset_card_le

/-! ## Worker loop lemmas -/
theorem runWorker_none_trace :
    ∀ (trace : List RecvOutcome) (s : WState),
      (∀ o ∈ trace, o = .ret none) → runWorker trace s = s := by
  intro trace
  induction trace with
  | nil => intro s _; rfl
  | cons o os ih =>
    intro s h
    have ho : o = .ret none := h o (by simp)
    subst ho
    show (if s.running then runWorker os (workerStep (.ret none) s) else s) = s
    by_cases hr : s.running
    · rw [if_pos hr]
      exact ih s (fun x hx => h x (by simp [hx]))
    · rw [if_neg hr]

theorem workerStep_stops_iff (s : WState) (o : RecvOutcome)
    (h : s.running = true) :
    (workerStep o s).running = false ↔
      o = .ret (some .wshutdown) ∨ o = .exn ∨
        ∃ gid, o = .ret (some (.task gid (.error ()))) := by
  cases o with
  | timeout => simp [workerStep, h]
  | exn => simp [workerStep]
  | ret m =>
    cases m with
    | none => simp [workerStep, h]
    | some msg =>
      cases msg with
      | task gid outcome =>
        cases outcome with
        | ok q => simp [workerStep, h]
        | error e => simp [workerStep]
      | wshutdown => simp [workerStep]
      | other => simp [workerStep, h]

/-! ## Claims -/
/-- Claim C1, counterexample: on a TASK whose payload fails to deserialize
or whose evaluation raises, the worker loop does NOT send a failure RESULT
and does NOT keep running: starting from a running worker with nothing
sent, one failing task leaves `running = false` and nothing sent, refuting
the claim that the loop sends `success = false` and continues. -/
theorem worker_failing_task_counterexample :
    (workerStep (.ret (some (.task 5 (.error ())))) ⟨true, []⟩).running = false ∧
    (workerStep (.ret (some (.task 5 (.error ())))) ⟨true, []⟩).sent = [] :=
  ⟨rfl, rfl⟩

/-- Claim C1, amended: a TASK whose deserialization or evaluation raises is
caught by the worker loop's generic `except Exception` handler, which sends
no RESULT at all (the protocol has no `success` field) and sets the running
flag to false, so a single failing task terminates the worker loop. -/
theorem worker_failing_task_terminates_loop (gid : Nat) (s : WState) :
    workerStep (.ret (some (.task gid (.error ())))) s
      = { running := false, sent := s.sent } := rfl

/-- Claim C2, counterexample: the 4-byte length field is read by a single
unretried `recv(4)`, so a valid framed message whose length field is split
across two reads is misread: the frame of body `[120]` delivered as chunks
`[0,0]` and `[0,1,120]` is not reconstructed (the first read returns two
bytes, which are misinterpreted as length 0). -/
theorem receive_split_length_field_counterexample :
    flat [[0, 0], [0, 1, 120]] = toBytesBE4 1 ++ [120] ∧
    wfStream [[0, 0], [0, 1, 120]] = true ∧
    receiveRaw [[0, 0], [0, 1, 120]] = some [] ∧
    receiveRaw [[0, 0], [0, 1, 120]] ≠ some [120] := by
  refine ⟨by decide, by decide, by decide, by decide⟩

/-- Claim C2, amended: receiving is chunk-boundary-independent in the BODY
only.  Provided the first read delivers at least the whole 4-byte length
field, the body is accumulated across arbitrarily small reads until the
declared length is met, and the original message is reconstructed exactly;
the length field itself is read by one `recv(4)` that is not retried. -/
theorem receive_reconstructs_body_chunks {c : List Nat} {r : List (List Nat)}
    {len : Nat} {body : List Nat}
    (hw : wfStream (c :: r) = true) (hc4 : 4 ≤ c.length)
    (hcat : flat (c :: r) = toBytesBE4 len ++ body)
    (hbody : body.length = len) (hlen : len < 2 ^ 32) :
    receiveRaw (c :: r) = some body :=
  receiveRaw_framed hw hc4 hcat hbody hlen

/-- Witness for C2's amended theorem: a two-byte body delivered one byte
per read after a whole-prefix first read is reconstructed. -/
theorem receive_reconstructs_body_chunks_witness :
    wfStream [[0, 0, 0, 2], [65], [66]] = true ∧
    receiveRaw [[0, 0, 0, 2], [65], [66]] = some [65, 66] :=
  ⟨by decide, @receive_reconstructs_body_chunks [0, 0, 0, 2] [[65], [66]]
    2 [65, 66] (by decide) (by decide) (by decide) (by decide) (by decide)⟩

/-- Claim C3, counterexample: when the stream ends before any length byte
arrives, `receive_message` raises nothing: it returns Python `None`
(`Except.ok none`), not a `ConnectionClosed` error (no such exception
exists anywhere in the code). -/
theorem receive_eof_counterexample :
    receive_message ([] : List (List Nat)) = .ok none ∧
    ∀ e : Unit, receive_message ([] : List (List Nat)) ≠ .error e := by
  refine ⟨rfl, ?_⟩
  intro e
  cases e
  decide

/-- Claim C3, amended: `receive_message` signals a closed connection by
RETURNING `None` rather than raising: it returns `None` when the stream
ends before any length byte arrives, and likewise when the connection
closes before the full declared body length has been read (given the
length field itself arrived in the first read).  No `ConnectionClosed`
exception exists. -/
theorem receive_connection_closed_returns_none :
    (receive_message ([] : List (List Nat)) = .ok none) ∧
    ∀ (c : List Nat) (r : List (List Nat)) (len : Nat) (body : List Nat),
      wfStream (c :: r) = true → 4 ≤ c.length →
      flat (c :: r) = toBytesBE4 len ++ body → body.length < len →
      len < 2 ^ 32 →
      receive_message (c :: r) = .ok none := by
  refine ⟨rfl, ?_⟩
  intro c r len body hw hc4 hcat hbody hlen
  unfold receive_message
  rw [receiveRaw_truncated hw hc4 hcat hbody hlen]

/-- Witness for C3's amended theorem: a frame declaring 5 body bytes whose
stream ends after 1 body byte yields `None`, no exception. -/
theorem receive_connection_closed_returns_none_witness :
    receive_message [[0, 0, 0, 5], [65]] = .ok none :=
  receive_connection_closed_returns_none.2 [0, 0, 0, 5] [[65]] 5 [65]
    (by decide) (by decide) (by decide) (by decide) (by decide)

/-- Claim C4: for every kind in the message-kind set and every well-formed
payload mapping, decoding the framed encoding of `{kind, payload}`
(`create_message`, the `send_message` framing, `receive_message`,
`parse_message`) reconstructs the original kind and payload exactly. -/
theorem frame_encode_decode_roundtrip {msg_type : List Char}
    {payload : JMembers} {frame : List Nat}
    (hk : msg_type ∈ msgKinds) (hwf : wfM payload = true)
    (_hkeys : (memberKeys payload).Nodup)
    (hfr : send_message msg_type (some payload) = some frame) :
    receive_message [frame] = .ok (some (.jobj (.cons typeKey (.jstr msg_type)
      (.cons dataKey (.jobj payload) .nil)))) :=
  send_receive_roundtrip hk hwf hfr

/-- Witness for C4: a concrete TASK message with payload
`{"gid": 7, "dat": "abc"}` round-trips through the whole pipeline. -/
theorem frame_encode_decode_roundtrip_witness :
    receive_message [toBytesBE4
        (encodeUtf8 (create_message TASK (some (.cons ['g', 'i', 'd'] (.jnum 7)
          (.cons ['d', 'a', 't'] (.jstr ['a', 'b', 'c']) .nil))))).length
      ++ encodeUtf8 (create_message TASK (some (.cons ['g', 'i', 'd'] (.jnum 7)
          (.cons ['d', 'a', 't'] (.jstr ['a', 'b', 'c']) .nil))))]
      = .ok (some (.jobj (.cons typeKey (.jstr TASK)
          (.cons dataKey (.jobj (.cons ['g', 'i', 'd'] (.jnum 7)
            (.cons ['d', 'a', 't'] (.jstr ['a', 'b', 'c']) .nil))) .nil)))) :=
  frame_encode_decode_roundtrip (by decide) (by decide) (by decide) (by rfl)

/-- Claim C5: with an ordered task list of length N and a snapshot of W
live (non-failing) workers with distinct ids, W at least 1, distribution
sends task `i` to worker `i mod W`; each worker receives `floor (N / W)`
or `ceil (N / W)` tasks (the exact count being `N / W` plus one for the
first `N mod W` workers); and the task ids sent are exactly the tasks'
ids, in order and without duplicates. -/
theorem distribute_round_robin_fair (genomes : List PyGenome)
    (wl : List (Nat × WConn)) (hne : wl ≠ [])
    (hnd : (wl.map Prod.fst).Nodup)
    (hlive : ∀ w ∈ wl, w.2.broken = false)
    (hgnd : (genomes.map PyGenome.pyId).Nodup) :
    distribute_genomes genomes wl = some (roundRobinSends genomes wl, .ok wl) ∧
    (∀ j, (hj : j < wl.length) →
      ((roundRobinSends genomes wl).countP
          (fun q => q.1 == (wl.get ⟨j, hj⟩).1)
        = genomes.length / wl.length
          + (if j < genomes.length % wl.length then 1 else 0)) ∧
      ((roundRobinSends genomes wl).countP
          (fun q => q.1 == (wl.get ⟨j, hj⟩).1) = genomes.length / wl.length ∨
       (roundRobinSends genomes wl).countP
          (fun q => q.1 == (wl.get ⟨j, hj⟩).1)
        = (genomes.length + wl.length - 1) / wl.length)) ∧
    (roundRobinSends genomes wl).map (fun q => q.2.genome_id)
      = genomes.map PyGenome.pyId ∧
    ((roundRobinSends genomes wl).map (fun q => q.2.genome_id)).Nodup := by
  have hW : 0 < wl.length := List.length_pos.mpr hne
  have hloop := distributeLoop_good wl hlive genomes 0 wl
  have hcnt : ∀ j, (hj : j < wl.length) →
      (roundRobinSends genomes wl).countP
        (fun q => q.1 == (wl.get ⟨j, hj⟩).1)
      = genomes.length / wl.length
        + (if j < genomes.length % wl.length then 1 else 0) := by
    intro j hj
    unfold roundRobinSends
    rw [List.countP_map]
    have hpt : ∀ a ∈ genomes.enum,
        ((fun q : Nat × TaskMsg => q.1 == (wl.get ⟨j, hj⟩).1) ∘
          (fun p : Nat × PyGenome =>
            ((wl.getD (p.1 % wl.length) (0, ⟨false⟩)).1,
              (⟨p.2.pyId, p.2.dat⟩ : TaskMsg)))) a = true
        ↔ ((fun i => i % wl.length == j) ∘ (Prod.fst : Nat × PyGenome → Nat))
            a = true := by
      intro a _
      have hm : a.1 % wl.length < wl.length := Nat.mod_lt _ hW
      simp only [Function.comp_apply]
      rw [List.getD_eq_getElem _ _ hm]
      have hget : (wl.get ⟨j, hj⟩) = wl[j] := rfl
      rw [hget]
      by_cases he : a.1 % wl.length = j
      · simp [he]
      · have hne2 : wl[a.1 % wl.length].1 ≠ wl[j].1 := by
          intro hcontra
          apply he
          have hm2 : a.1 % wl.length < (wl.map Prod.fst).length := by
            simpa using hm
          have hj2 : j < (wl.map Prod.fst).length := by simpa using hj
          have h1 : (wl.map Prod.fst).get ⟨a.1 % wl.length, hm2⟩
              = (wl.map Prod.fst).get ⟨j, hj2⟩ := by
            rw [List.get_map, List.get_map]
            exact hcontra
          simpa using (List.Nodup.get_inj_iff hnd).mp h1
        simp [hne2, he]
    rw [List.countP_congr hpt, ← List.countP_map, List.enum_map_fst,
      count_range_mod _ _ _ hW hj]
  have hids : (roundRobinSends genomes wl).map (fun q => q.2.genome_id)
      = genomes.map PyGenome.pyId := by
    unfold roundRobinSends
    rw [List.map_map]
    have : ((fun q : Nat × TaskMsg => q.2.genome_id) ∘
        (fun p : Nat × PyGenome =>
          ((wl.getD (p.1 % wl.length) (0, ⟨false⟩)).1,
            (⟨p.2.pyId, p.2.dat⟩ : TaskMsg))))
        = (fun p : Nat × PyGenome => p.2.pyId) := rfl
    rw [this]
    have h2 : (fun p : Nat × PyGenome => p.2.pyId)
        = PyGenome.pyId ∘ (Prod.snd : Nat × PyGenome → PyGenome) := rfl
    rw [h2, ← List.map_map, List.enum_map_snd]
  refine ⟨?_, ?_, hids, ?_⟩
  · unfold distribute_genomes
    rw [if_neg (by simpa [List.isEmpty_iff] using hne), hloop]
    rfl
  · intro j hj
    exact ⟨hcnt j hj, by
      rw [hcnt j hj]
      exact floor_or_ceil genomes.length wl.length j hW⟩
  · rw [hids]
    exact hgnd

/-- Witness for C5: three tasks over two live workers: worker ids `1, 2`,
counts `2 = ceil (3 / 2)` and `1 = floor (3 / 2)`, ids preserved. -/
theorem distribute_round_robin_fair_witness :
    distribute_genomes [⟨10, 0⟩, ⟨11, 1⟩, ⟨12, 2⟩]
        [(1, ⟨false⟩), (2, ⟨false⟩)]
      = some (roundRobinSends [⟨10, 0⟩, ⟨11, 1⟩, ⟨12, 2⟩]
          [(1, ⟨false⟩), (2, ⟨false⟩)],
        .ok [(1, ⟨false⟩), (2, ⟨false⟩)]) ∧
    (roundRobinSends [⟨10, 0⟩, ⟨11, 1⟩, ⟨12, 2⟩]
        [(1, ⟨false⟩), (2, ⟨false⟩)]).countP (fun q => q.1 == 1) = 2 ∧
    (roundRobinSends [⟨10, 0⟩, ⟨11, 1⟩, ⟨12, 2⟩]
        [(1, ⟨false⟩), (2, ⟨false⟩)]).countP (fun q => q.1 == 2) = 1 ∧
    (roundRobinSends [⟨10, 0⟩, ⟨11, 1⟩, ⟨12, 2⟩]
        [(1, ⟨false⟩), (2, ⟨false⟩)]).map (fun q => q.2.genome_id)
      = [10, 11, 12] := by
  have h := distribute_round_robin_fair [⟨10, 0⟩, ⟨11, 1⟩, ⟨12, 2⟩]
    [(1, ⟨false⟩), (2, ⟨false⟩)] (by decide) (by decide) (by decide) (by decide)
  exact ⟨h.1, by decide, by decide, by decide⟩

/-- Claim C6, counterexample: the task id attached to a TASK message IS
derived from in-process object identity: two distributions of genomes with
identical payload content but different object addresses (`pyId`) produce
different task ids, so the id is not a coordinator-assigned
identity-independent identifier. -/
theorem task_id_from_identity_counterexample :
    (distributeLoop [(1, ⟨false⟩)] 0 [⟨100, 7⟩] [(1, ⟨false⟩)]).1.map
        (fun q => q.2.genome_id) = [100] ∧
    (distributeLoop [(1, ⟨false⟩)] 0 [⟨200, 7⟩] [(1, ⟨false⟩)]).1.map
        (fun q => q.2.genome_id) = [200] ∧
    (distributeLoop [(1, ⟨false⟩)] 0 [⟨100, 7⟩] [(1, ⟨false⟩)]).1.map
        (fun q => q.2.genome_id)
      ≠ (distributeLoop [(1, ⟨false⟩)] 0 [⟨200, 7⟩] [(1, ⟨false⟩)]).1.map
          (fun q => q.2.genome_id) := by
  refine ⟨by decide, by decide, by decide⟩

/-- Claim C6, amended: every task id sent by `distribute_genomes` is
exactly `id(genome)`, the in-process object identity of the payload; it is
unique within a generation only because live objects have distinct
addresses, and the master relies on those same addresses when matching
results back. -/
theorem task_id_is_object_identity (genomes : List PyGenome)
    (wl : List (Nat × WConn)) (hlive : ∀ w ∈ wl, w.2.broken = false) :
    ((distributeLoop wl 0 genomes wl).1).map (fun q => q.2.genome_id)
      = genomes.map PyGenome.pyId := by
  rw [distributeLoop_good wl hlive genomes 0 wl]
  rw [List.map_map]
  have h2 : ((fun q : Nat × TaskMsg => q.2.genome_id) ∘
      (fun p : Nat × PyGenome =>
        ((wl.getD (p.1 % wl.length) (0, ⟨false⟩)).1,
          (⟨p.2.pyId, p.2.dat⟩ : TaskMsg))))
      = PyGenome.pyId ∘ (Prod.snd : Nat × PyGenome → PyGenome) := rfl
  rw [h2, ← List.map_map,
    show List.enumFrom 0 genomes = genomes.enum from rfl, List.enum_map_snd]

/-- Witness for C6's amended theorem. -/
theorem task_id_is_object_identity_witness :
    ((distributeLoop [(1, ⟨false⟩), (2, ⟨false⟩)] 0 [⟨100, 7⟩, ⟨200, 8⟩]
        [(1, ⟨false⟩), (2, ⟨false⟩)]).1).map (fun q => q.2.genome_id)
      = [100, 200] := by
  rw [task_id_is_object_identity [⟨100, 7⟩, ⟨200, 8⟩]
    [(1, ⟨false⟩), (2, ⟨false⟩)] (by decide)]
  rfl

/-- Claim C7: eviction is Python `del self.workers[worker_id]`, which
raises `KeyError` on an absent key; when the same broken worker receives
two round-robin sends in one distribution pass, the second failure runs
`del` on the already-removed id and the uncaught `KeyError` aborts
`distribute_genomes` - evicting an absent worker is NOT an error-free
no-op. -/
theorem evict_absent_raises_keyerror :
    pyDictDel [] 1 = .error () ∧
    (distributeLoop [(1, ⟨true⟩)] 0 [⟨10, 0⟩, ⟨11, 1⟩] [(1, ⟨true⟩)]).2
      = .error () := by
  refine ⟨by decide, by decide⟩

/-- Claim C8: when only the results in `passes` (for K distinct task ids
of the generation, K < N) arrive before the collection deadline, the loop
ends with exactly K recorded results, and every task whose id is absent is
assigned fitness 0.0 with no recorded (successful) result - the code's only
notion of `success = false`. -/
theorem collection_deadline_defaults (genomes : List PyGenome)
    (passes : List (List (Nat × ℚ)))
    (hnd : ((passes.flatten).map Prod.fst).Nodup)
    (_hsub : ∀ k ∈ (passes.flatten).map Prod.fst,
      k ∈ genomes.map PyGenome.pyId)
    (hK : (passes.flatten).length < genomes.length) :
    (collectLoop genomes.length passes []).length = (passes.flatten).length ∧
    ∀ g ∈ genomes, g.pyId ∉ (passes.flatten).map Prod.fst →
      (g, (0 : ℚ)) ∈ assignFitness genomes (collectLoop genomes.length passes [])
        ∧ resultRecorded (collectLoop genomes.length passes []) g.pyId
            = false := by
  have hkeys : (collectPass [] passes.flatten).map Prod.fst
      = passes.flatten.map Prod.fst := by
    have := collectPass_keys_fresh passes.flatten [] hnd (by simp)
    simpa using this
  have hlenR : (collectPass [] passes.flatten).length
      = (passes.flatten).length := by
    rw [← List.length_map (collectPass [] passes.flatten) Prod.fst, hkeys,
      List.length_map]
  have hrun : collectLoop genomes.length passes []
      = collectPass [] passes.flatten :=
    collectLoop_runs_all genomes.length passes [] (by omega)
  rw [hrun, hlenR]
  refine ⟨rfl, ?_⟩
  intro g hg habs
  have hnone : (collectPass [] passes.flatten).lookup g.pyId = none := by
    rw [lookup_none_iff, hkeys]
    exact habs
  constructor
  · have : dictGet (collectPass [] passes.flatten) g.pyId = 0 := by
      simp [dictGet, hnone]
    exact List.mem_map.mpr ⟨g, hg, by rw [this]⟩
  · simp [resultRecorded, hnone]

/-- Witness for C8: three tasks, a single result for id 10 before the
deadline: one recorded result, and the task with id 11 defaults to fitness
0 with nothing recorded for it. -/
theorem collection_deadline_defaults_witness :
    (collectLoop 3 [[(10, 5)]] []).length = 1 ∧
    ((⟨11, 1⟩ : PyGenome), (0 : ℚ)) ∈ assignFitness
        [⟨10, 0⟩, ⟨11, 1⟩, ⟨12, 2⟩] (collectLoop 3 [[(10, 5)]] []) ∧
    resultRecorded (collectLoop 3 [[(10, 5)]] []) 11 = false := by
  have h := collection_deadline_defaults [⟨10, 0⟩, ⟨11, 1⟩, ⟨12, 2⟩]
    [[(10, 5)]] (by decide) (by decide) (by decide)
  have h2 := h.2 ⟨11, 1⟩ (by decide) (by decide)
  exact ⟨by simpa using h.1, h2.1, h2.2⟩

/-- Claim C9, counterexample: the result set is NOT bounded by the task
set for arbitrary incoming RESULT messages: every received `genome_id` is
recorded unconditionally, so with one expected task and one polling pass
delivering two unrecognized ids, the result set reaches size 2 > 1. -/
theorem result_set_exceeds_task_set_counterexample :
    (collectLoop 1 [[(100, 1), (200, 2)]] []).length = 2 ∧
    ¬((collectLoop 1 [[(100, 1), (200, 2)]] []).length ≤ 1) := by
  refine ⟨by decide, by decide⟩

/-- Claim C9, amended: provided every received RESULT carries a task id of
the distributed generation, the result set stays within the task set at
every point of the collection cycle: duplicates overwrite, and the number
of recorded results never exceeds the number of distributed tasks. -/
theorem result_set_bounded_by_task_set (expected : Nat) (taskIds : List Nat)
    (passes : List (List (Nat × ℚ))) (res0 : List (Nat × ℚ))
    (_htnd : taskIds.Nodup)
    (hres : (res0.map Prod.fst).Nodup ∧ ∀ k ∈ res0.map Prod.fst, k ∈ taskIds)
    (hvalid : ∀ p ∈ passes, ∀ m ∈ p, m.1 ∈ taskIds) :
    (collectLoop expected passes res0).length ≤ taskIds.length := by
  obtain ⟨hnd, hsub⟩ :=
    collectLoop_invariant expected taskIds passes res0 hres hvalid
  have hb := nodup_subset_length hnd hsub
  calc (collectLoop expected passes res0).length
      = ((collectLoop expected passes res0).map Prod.fst).length := by simp
    _ ≤ taskIds.length := hb

/-- Witness for C9's amended theorem: two passes over the task set
`[10, 11]` (with an overwrite of id 10) keep at most two results. -/
theorem result_set_bounded_by_task_set_witness :
    (collectLoop 2 [[(10, 1), (11, 2)], [(10, 3)]] []).length ≤ 2 :=
  result_set_bounded_by_task_set 2 [10, 11] [[(10, 1), (11, 2)], [(10, 3)]]
    [] (by decide) ⟨by decide, by decide⟩ (by decide)

/-- Claim C10: when the coordinator's connection closes cleanly with no
SHUTDOWN message, every receive returns `None` (never raising), the loop
treats a `None` return exactly like an idle timeout and keeps running
forever, and the running flag is falsified only by a parsed SHUTDOWN, by a
non-timeout receive exception, or by a failing task. -/
theorem worker_survives_silent_close (trace : List RecvOutcome) (s : WState)
    (htrace : ∀ o ∈ trace, o = .ret none) (hrun : s.running = true) :
    runWorker trace s = s ∧ (runWorker trace s).running = true ∧
    receive_message ([] : List (List Nat)) = .ok none ∧
    (∀ t : WState, workerStep (.ret none) t = workerStep .timeout t) ∧
    (∀ (t : WState) (o : RecvOutcome), t.running = true →
      ((workerStep o t).running = false ↔
        o = .ret (some .wshutdown) ∨ o = .exn ∨
          ∃ gid, o = .ret (some (.task gid (.error ()))))) := by
  have h1 := runWorker_none_trace trace s htrace
  exact ⟨h1, by rw [h1]; exact hrun, rfl, fun t => rfl,
    fun t o ht => workerStep_stops_iff t o ht⟩

/-- Witness for C10: two silent-close receives leave a running worker
unchanged; a receive exception is one of the stopping events. -/
theorem worker_survives_silent_close_witness :
    runWorker [.ret none, .ret none] ⟨true, []⟩ = ⟨true, []⟩ ∧
    (runWorker [.ret none, .ret none] ⟨true, []⟩).running = true ∧
    receive_message ([] : List (List Nat)) = .ok none ∧
    (workerStep RecvOutcome.exn ⟨true, []⟩).running = false := by
  have h := worker_survives_silent_close [.ret none, .ret none] ⟨true, []⟩
    (by decide) rfl
  exact ⟨h.1, h.2.1, h.2.2.1, by decide⟩

end Neatify

